import Mathlib

/-!
Verification development for the AI Notes System repository.

The embedding models the core of the repository:
  - src/src/utils/noteFormatter.js   (parseNoteContent, formatNoteContent)
  - src/src/utils/authorization.js   (PERMISSIONS, isAuthorized)
  - src/unnamed/part_004             (the note model: getAllNotes, getNoteById,
    createNote, updateNote, deleteNote, appendToNote, searchNotes)

Strings are modelled as `List Char` (JavaScript strings; ASCII behaviour of
`toLowerCase`, `trim` and lexicographic comparison is modelled exactly, which
covers all characters the system writes).  The filesystem is modelled as an
association list from absolute, normalized path-segment lists to file
contents.  `NOTES_DIR` is modelled as the absolute path `/app/notes`, the
production default (Dockerfile and config/production set
`NOTES_DIR=/app/notes`).
-/

/-! ## Generic list-of-characters utilities -/

/-- Boolean list-prefix test, the model of JavaScript `String.startsWith`. -/
def isPrefixList [DecidableEq α] : List α → List α → Bool
  | [], _ => true
  | _ :: _, [] => false
  | a :: as, b :: bs => if a = b then isPrefixList as bs else false

/-- Boolean substring test, the model of JavaScript `String.includes`. -/
def containsSub [DecidableEq α] (p : List α) : List α → Bool
  | [] => isPrefixList p []
  | b :: bs => isPrefixList p (b :: bs) || containsSub p bs

/-- Split at the first occurrence of `sep`, returning the part before and the
part after; `none` when `sep` does not occur.  This models the non-greedy
regular-expression group `([\s\S]*?)` followed by a literal separator. -/
def splitFirst [DecidableEq α] (sep : List α) : List α → Option (List α × List α)
  | [] => if isPrefixList sep [] then some ([], []) else none
  | b :: bs =>
    if isPrefixList sep (b :: bs) then some ([], (b :: bs).drop sep.length)
    else match splitFirst sep bs with
      | some (x, y) => some (b :: x, y)
      | none => none

/-- Split a character list on a separator character; the result is always
nonempty, the model of JavaScript `String.split`. -/
def splitOnChar (sep : Char) : List Char → List (List Char)
  | [] => [[]]
  | c :: rest =>
    match splitOnChar sep rest with
    | [] => [[c]]
    | h :: t => if c = sep then [] :: h :: t else (c :: h) :: t

/-- Join segment lists with a separator list between consecutive segments. -/
def joinWith (sep : List Char) : List (List Char) → List Char
  | [] => []
  | [l] => l
  | l :: ls => l ++ sep ++ joinWith sep ls

/-- Render path segments relative-style, separated by `/`. -/
def joinSegs (segs : List (List Char)) : List Char :=
  joinWith ['/'] segs

/-- Render path segments as an absolute path string with a leading `/`. -/
def renderAbs (segs : List (List Char)) : List Char :=
  '/' :: joinSegs segs

/-- Model of JavaScript `String.trim` (ASCII whitespace). -/
def trimList (s : List Char) : List Char :=
  ((s.dropWhile Char.isWhitespace).reverse.dropWhile Char.isWhitespace).reverse

/-- Model of JavaScript `String.toLowerCase` (ASCII). -/
def toLowerList (s : List Char) : List Char :=
  s.map Char.toLower

/-- Boolean suffix test, the model of JavaScript `String.endsWith`. -/
def endsWithL (suf s : List Char) : Bool :=
  isPrefixList suf.reverse s.reverse

/-- Strict lexicographic comparison on code points, the model of the
JavaScript `<` operator on strings. -/
def lexLt : List Char → List Char → Bool
  | [], [] => false
  | [], _ :: _ => true
  | _ :: _, [] => false
  | a :: as, b :: bs => if a < b then true else if b < a then false else lexLt as bs

/-- Reflexive lexicographic order on code points (a specification-side
definition used to state inclusive-bound properties). -/
def lexLe (a b : List Char) : Bool :=
  lexLt a b || a == b

/-! ## YAML model

The system serializes metadata with `js-yaml`.  The notes it writes are flat
mappings whose values are plain scalars (`date`, `author`, `lastModified`)
or sequences of plain scalars (`tags`, `related`).  `dumpYaml`/`loadYaml`
model `yaml.dump`/`yaml.load` on exactly that fragment; `validMeta` bounds
the domain on which the model coincides with `js-yaml` (plain unquoted
scalars that the YAML core schema resolves as strings). -/

inductive YVal where
  | str (s : List Char)
  | list (xs : List (List Char))
deriving DecidableEq

abbrev MetaMap := List (List Char × YVal)

/-- Model of JavaScript property access `metadata[k]` (`none` = `undefined`). -/
def lookupMeta (m : MetaMap) (k : List Char) : Option YVal :=
  (m.find? (fun e => e.fst == k)).map (fun e => e.snd)

/-- Model of JavaScript object spread plus assignment: an existing key keeps
its position and is overwritten, a new key is appended. -/
def setMeta (m : MetaMap) (k : List Char) (v : YVal) : MetaMap :=
  if m.any (fun e => e.fst == k) then
    m.map (fun e => if e.fst == k then (k, v) else e)
  else m ++ [(k, v)]

/-- The lines `yaml.dump` emits for one mapping entry:
`k: v` for a scalar, `k: []` for an empty sequence, and
`k:` followed by `  - x` item lines for a nonempty sequence. -/
def entryLines : (List Char × YVal) → List (List Char)
  | (k, .str v) => [k ++ ':' :: ' ' :: v]
  | (k, .list []) => [k ++ ": []".data]
  | (k, .list xs) => (k ++ [':']) :: xs.map (fun x => "  - ".data ++ x)

/-- Concatenate lines, terminating every line with a newline. -/
def lineJoin (ls : List (List Char)) : List Char :=
  (ls.map (fun l => l ++ ['\n'])).flatten

def dumpLines (m : MetaMap) : List (List Char) :=
  if m = [] then ["\x7b\x7d".data] else (m.map entryLines).flatten

/-- Model of `yaml.dump` on the metadata fragment (always newline-terminated;
`{}` for the empty mapping, as js-yaml prints). -/
def dumpYaml (m : MetaMap) : List Char :=
  lineJoin (dumpLines m)

def isItemLine (l : List Char) : Bool :=
  isPrefixList "  - ".data l

/-- Line-level model of `yaml.load` on the metadata fragment: scalar lines
`k: v`, empty-sequence lines `k: []`, and `k:` followed by `  - x` items.
The `fuel` argument (instantiated with the number of lines, which strictly
bounds the recursion) makes the definition structurally recursive. -/
def parseMetaLinesAux : Nat → List (List Char) → Option MetaMap
  | _, [] => some []
  | 0, _ :: _ => none
  | fuel + 1, l :: rest =>
    match splitFirst ": ".data l with
    | some (k, v) =>
      if v = "[]".data then
        (parseMetaLinesAux fuel rest).map (fun m => (k, YVal.list []) :: m)
      else (parseMetaLinesAux fuel rest).map (fun m => (k, YVal.str v) :: m)
    | none =>
      if endsWithL ":".data l then
        (parseMetaLinesAux fuel (rest.dropWhile isItemLine)).map
          (fun m => (l.dropLast,
            YVal.list ((rest.takeWhile isItemLine).map (fun x => x.drop 4))) :: m)
      else none

def parseMetaLines (ls : List (List Char)) : Option MetaMap :=
  parseMetaLinesAux ls.length ls

/-- Model of `yaml.load` on the front-matter text (without its final
newline, which the parsing regular expression consumes); `none` models a
thrown `YAMLException`. -/
def loadYaml (y : List Char) : Option MetaMap :=
  if y = "\x7b\x7d".data then some [] else parseMetaLines (splitOnChar '\n' y)

/-- Strings that the YAML core schema would resolve as booleans or null. -/
def yamlReserved : List (List Char) :=
  ["true".data, "True".data, "TRUE".data, "false".data, "False".data,
   "FALSE".data, "null".data, "Null".data, "NULL".data, "~".data,
   "yes".data, "Yes".data, "YES".data, "no".data, "No".data, "NO".data,
   "on".data, "On".data, "ON".data, "off".data, "Off".data, "OFF".data]

def plainChar (c : Char) : Bool :=
  c.isAlphanum || c = '-' || c = '_'

/-- Scalars that js-yaml dumps unquoted and loads back as the same string. -/
def validScalarB (s : List Char) : Bool :=
  (! s.isEmpty) && s.all plainChar &&
  (match s with
   | [] => false
   | c :: _ => c.isAlpha || (c.isDigit && s.contains '-')) &&
  ! (yamlReserved.contains s)

def validKeyB (k : List Char) : Bool :=
  (! k.isEmpty) && k.all (fun c => c.isAlphanum)

def validValB : YVal → Bool
  | .str s => validScalarB s
  | .list xs => xs.all validScalarB

/-- Metadata mappings on which the YAML model is exact: plain keys, plain
string-resolved scalars, and (as for every JavaScript object) no duplicate
keys. -/
def validMeta (m : MetaMap) : Prop :=
  (∀ e ∈ m, validKeyB e.fst = true ∧ validValB e.snd = true) ∧
  (m.map (fun e => e.fst)).Nodup

instance : DecidablePred validMeta := fun m => by
  unfold validMeta; infer_instance

/-! ## Note codec: src/src/utils/noteFormatter.js -/

structure Note where
  id : List Char
  path : List Char
  title : List Char
  content : List Char
  metadata : MetaMap
deriving DecidableEq

/-- First line matching the multiline regular expression `^# (.*?)$`:
the text after `# ` on the first line that starts with `# `. -/
def extractTitle (s : List Char) : Option (List Char) :=
  (splitOnChar '\n' s).findSome?
    (fun l => if isPrefixList "# ".data l then some (l.drop 2) else none)

/-- Model of `path.basename(filePath, '.md')` applied to the last path
segment: strips a trailing `.md`. -/
def stemOf (name : List Char) : List Char :=
  if endsWithL ".md".data name then name.take (name.length - 3) else name

/-- Match of `/^---\n([\s\S]*?)\n---\n([\s\S]*)$/`: the raw text must start
with `---` on its own line, and the non-greedy group ends at the first
later occurrence of a `---` line. -/
def splitFrontMatter (raw : List Char) : Option (List Char × List Char) :=
  if isPrefixList "---\n".data raw then splitFirst "\n---\n".data (raw.drop 4)
  else none

/-- `parseNoteContent(content, filePath, notesDir)` from
src/src/utils/noteFormatter.js.  `fileSegs` are the absolute path segments
of `filePath`, `rootSegs` those of `notesDir`; `id` models
`path.relative(notesDir, filePath)` for files under the notes directory. -/
def parseNoteContent (raw : List Char) (fileSegs rootSegs : List (List Char)) : Note :=
  let relId := joinSegs (fileSegs.drop rootSegs.length)
  let pathStr := renderAbs fileSegs
  let stem := stemOf (fileSegs.getLastD [])
  match splitFrontMatter raw with
  | none =>
    { id := relId, path := pathStr, title := (extractTitle raw).getD stem,
      content := raw, metadata := [] }
  | some (y, body) =>
    match loadYaml y with
    | none =>
      { id := relId, path := pathStr, title := stem, content := raw,
        metadata := [] }
    | some m =>
      { id := relId, path := pathStr, title := (extractTitle body).getD stem,
        content := trimList body, metadata := m }

/-- `formatNoteContent(metadata, title, content)` from
src/src/utils/noteFormatter.js. -/
def formatNoteContent (m : MetaMap) (title content : List Char) : List Char :=
  if isPrefixList "# ".data (trimList content) then
    "---\n".data ++ dumpYaml m ++ "---\n\n".data ++ content
  else
    "---\n".data ++ dumpYaml m ++ "---\n\n# ".data ++ title ++ "\n\n".data ++ content

/-! ## Authorization: src/src/utils/authorization.js -/

def PERMISSIONS : List (List Char × List (List Char)) :=
  [("admin".data,
    ["create".data, "read".data, "update".data, "delete".data, "search".data]),
   ("research".data,
    ["create".data, "read".data, "update".data, "search".data]),
   ("writing".data,
    ["create".data, "read".data, "update".data, "delete".data, "search".data]),
   ("analytics".data,
    ["read".data, "search".data])]

/-- `isAuthorized(role, operation)`; a missing argument is modelled by the
empty string, which is falsy exactly like `undefined` in the guard
`if (!role || !operation)`. -/
def isAuthorized (role operation : List Char) : Bool :=
  if role = [] ∨ operation = [] then false
  else
    match (PERMISSIONS.find? (fun e => e.fst == role)).map (fun e => e.snd) with
    | none => false
    | some ps => ps.contains operation

/-- Own property names of `Object.prototype` in Node's standard runtime.
A JavaScript property access `PERMISSIONS[role]` consults the prototype
chain after the object's own keys, so each of these names hits an
inherited value: a built-in function, or (for `__proto__`) the
`Object.prototype` object itself -- in every case a truthy value that is
not an array. -/
def objectProtoProps : List (List Char) :=
  ["constructor".data, "hasOwnProperty".data, "isPrototypeOf".data,
   "propertyIsEnumerable".data, "toLocaleString".data, "toString".data,
   "valueOf".data, "__defineGetter__".data, "__defineSetter__".data,
   "__lookupGetter__".data, "__lookupSetter__".data, "__proto__".data]

inductive AuthErr where
  | typeError
deriving DecidableEq

/-- `isAuthorized(role, operation)` with the property access
`PERMISSIONS[role]` modelled faithfully, prototype chain included.  An own
key of the table yields its permissions array; a name inherited from
`Object.prototype` yields a truthy non-array, so the `if (!permissions)`
guard does not fire and `permissions.includes(operation)` throws
`TypeError` (modelled as `.error .typeError`); every other name yields
`undefined`, on which the guard returns `false`. -/
def isAuthorizedJs (role operation : List Char) : Except AuthErr Bool :=
  if role = [] ∨ operation = [] then .ok false
  else
    match (PERMISSIONS.find? (fun e => e.fst == role)).map (fun e => e.snd) with
    | some ps => .ok (ps.contains operation)
    | none =>
      if objectProtoProps.contains role then .error .typeError
      else .ok false

/-! ## Path resolution

`NOTES_DIR` is `/app/notes` (the production default), so
`path.resolve(NOTES_DIR)` has segments `["app", "notes"]` and joining with a
note id then resolving yields `normSegs (rootSegs ++ splitSegs id)`. -/

def rootSegs : List (List Char) :=
  ["app".data, "notes".data]

def splitSegs (s : List Char) : List (List Char) :=
  splitOnChar '/' s

/-- One step of absolute-path normalization: empty and `.` segments
vanish, `..` pops the previous segment (a no-op at the root). -/
def normStep (acc : List (List Char)) (seg : List Char) : List (List Char) :=
  if seg = [] ∨ seg = ".".data then acc
  else if seg = "..".data then acc.dropLast
  else acc ++ [seg]

/-- Absolute-path normalization as performed by `path.resolve`. -/
def normSegs (segs : List (List Char)) : List (List Char) :=
  segs.foldl normStep []

/-- Absolute segments of the file a note id designates (resolution of
`path.join(NOTES_DIR, noteId)`). -/
def noteKey (noteId : List Char) : List (List Char) :=
  normSegs (rootSegs ++ splitSegs noteId)

/-- The traversal guard of src/unnamed/part_004:
`path.resolve(notePath).startsWith(path.resolve(NOTES_DIR))`. -/
def pathCheck (noteId : List Char) : Bool :=
  isPrefixList (renderAbs (normSegs rootSegs)) (renderAbs (noteKey noteId))

/-- Specification-side notion of staying inside the repository root: the
canonical root segments are a segment-wise prefix of the canonical resolved
segments (descendant of, or equal to, the root). -/
def isUnderRoot (noteId : List Char) : Bool :=
  isPrefixList rootSegs (noteKey noteId)

/-! ## Regular-expression counting

`searchNotes` ranks with `(text.match(new RegExp(query, 'g')) || []).length`.
The model covers patterns built from literal characters plus the `.`
metacharacter (any character except a line terminator); every pattern
element consumes exactly one character, which makes the `g`-flag scan the
usual greedy non-overlapping scan. -/

def reCharOk (p c : Char) : Bool :=
  if p = '.' then ! (c = '\n' || c = '\r') else p = c

def reMatchAt : List Char → List Char → Option (List Char)
  | [], t => some t
  | _ :: _, [] => none
  | p :: ps, c :: cs => if reCharOk p c then reMatchAt ps cs else none

/-- Number of matches of the `g`-flagged pattern scan over the text; each
scan step consumes at least one character of a nonempty pattern, so the
text length bounds the recursion and serves as structural fuel. -/
def regexCountAux (p : List Char) : Nat → List Char → Nat
  | _, [] => 0
  | 0, _ :: _ => 0
  | fuel + 1, c :: cs =>
    match reMatchAt p (c :: cs) with
    | some r => 1 + regexCountAux p fuel r
    | none => regexCountAux p fuel cs

def countRegexMatches (p : List Char) (t : List Char) : Nat :=
  if p = [] then 0 else regexCountAux p t.length t

/-- Specification-side relevance primitive: the greedy (hence maximal)
count of non-overlapping occurrences of `p` as a plain substring of `t`,
with the text length as structural fuel exactly as in `regexCountAux`. -/
def occurCountAux (p : List Char) : Nat → List Char → Nat
  | _, [] => 0
  | 0, _ :: _ => 0
  | fuel + 1, c :: cs =>
    if isPrefixList p (c :: cs) then 1 + occurCountAux p fuel ((c :: cs).drop p.length)
    else occurCountAux p fuel cs

def countOccur (p : List Char) (t : List Char) : Nat :=
  if p = [] then 0 else occurCountAux p t.length t

/-! ## Slug (createNote filename) -/

def isSlugChar (c : Char) : Bool :=
  c.isLower || c.isDigit

/-- Model of `.replace(/[^a-z0-9]+/g, '_')` as a two-state scan: `inRun`
records whether the previous character was outside `[a-z0-9]`, so every
maximal run of such characters contributes exactly one underscore. -/
def collapseAux : Bool → List Char → List Char
  | _, [] => []
  | inRun, c :: rest =>
    if isSlugChar c then c :: collapseAux false rest
    else if inRun then collapseAux true rest
    else '_' :: collapseAux true rest

def collapseRuns (l : List Char) : List Char :=
  collapseAux false l

/-- `title.toLowerCase().replace(/[^a-z0-9]+/g, '_')` from createNote. -/
def slugOf (title : List Char) : List Char :=
  collapseRuns (toLowerList title)

/-! ## Stable sorting

`Array.prototype.sort` is required to be stable and, for a consistent
comparator, to produce the order of the comparator; for the comparators the
system uses (numeric descending, date descending) the result is therefore
the unique stable descending order, which this insertion sort computes. -/

def insSorted (gt : α → α → Bool) (x : α) : List α → List α
  | [] => [x]
  | y :: ys => if gt y x then y :: insSorted gt x ys else x :: y :: ys

def stableSortBy (gt : α → α → Bool) (l : List α) : List α :=
  l.foldr (insSorted gt) []

/-! ## Filesystem model and the note store: src/unnamed/part_004

Files are an association list from absolute normalized path segments to raw
contents; list order stands for the order the recursive directory walk
visits files.  Directories are implicit (`fs.mkdir` is idempotent creation
and needs no state of its own). -/

abbrev FS := List (List (List Char) × List Char)

def lookupFS (fs : FS) (k : List (List Char)) : Option (List Char) :=
  match fs with
  | [] => none
  | e :: es => if e.fst = k then some e.snd else lookupFS es k

def removeFS (fs : FS) (k : List (List Char)) : FS :=
  match fs with
  | [] => []
  | e :: es => if e.fst = k then removeFS es k else e :: removeFS es k

def writeFS (fs : FS) (k : List (List Char)) (v : List Char) : FS :=
  removeFS fs k ++ [(k, v)]

inductive NoteErr where
  | permission
  | invalidPath
deriving DecidableEq

structure DateRange where
  dstart : Option (List Char)
  dend : Option (List Char)
deriving DecidableEq

structure SearchFilters where
  tags : Option (List (List Char))
  category : Option (List Char)
  dateRange : Option DateRange
deriving DecidableEq

def emptyFilters : SearchFilters :=
  { tags := none, category := none, dateRange := none }

def isMdFile (e : List (List Char) × List Char) : Bool :=
  endsWithL ".md".data (e.fst.getLastD [])

def metaDateOf (m : MetaMap) : Option (List Char) :=
  match lookupMeta m "date".data with
  | some (.str s) => some s
  | _ => none

/-- The listing comparator `a.metadata.date > b.metadata.date ? -1 : ...`:
strictly greater on date strings; every comparison that involves a missing
date is false, so such pairs tie. -/
def dateGt (a b : Note) : Bool :=
  match metaDateOf a.metadata, metaDateOf b.metadata with
  | some da, some db => lexLt db da
  | _, _ => false

/-- `getAllNotesInternal`: walk every `.md` file, decode it, sort by date
descending (stable). -/
def getAllNotesInternal (fs : FS) : List Note :=
  stableSortBy dateGt
    ((fs.filter isMdFile).map (fun e => parseNoteContent e.snd e.fst rootSegs))

/-- Model of JavaScript `v.includes(x)` for a metadata value: array
membership for sequences, substring for strings. -/
def yIncludes (v : YVal) (x : List Char) : Bool :=
  match v with
  | .str s => containsSub x s
  | .list xs => xs.contains x

/-- JavaScript truthiness of a metadata value: only the empty string is
falsy (arrays, even empty ones, are truthy). -/
def jsFalsyY (v : YVal) : Bool :=
  match v with
  | .str s => s.isEmpty
  | .list _ => false

/-- getAllNotes tag filtering:
`tagList.some(tag => note.metadata.tags && note.metadata.tags.includes(tag))`
with `tagList = tags.split(',')`. -/
def tagArgMatches (tagsArg : List Char) (n : Note) : Bool :=
  (splitOnChar ',' tagsArg).any (fun tag =>
    match lookupMeta n.metadata "tags".data with
    | none => false
    | some v => ! jsFalsyY v && yIncludes v tag)

/-- Category filtering in getAllNotes and searchNotes:
`note.path.includes('/' + category + '/')`. -/
def categoryMatches (category : List Char) (n : Note) : Bool :=
  containsSub ('/' :: (category ++ ['/'])) n.path

/-- Keyword filtering in getAllNotes: case-insensitive substring of content
or title. -/
def keywordMatches (keyword : List Char) (n : Note) : Bool :=
  containsSub (toLowerList keyword) (toLowerList n.content) ||
  containsSub (toLowerList keyword) (toLowerList n.title)

/-- `getAllNotes(role, tags, category, keyword)` from src/unnamed/part_004.
The string filter arguments are optional; JavaScript skips each filter when
the argument is falsy (absent or the empty string). -/
def getAllNotes (role : List Char) (tagsArg categoryArg keywordArg : Option (List Char))
    (fs : FS) : Except NoteErr (List Note) :=
  if isAuthorized role "read".data then
    let l0 := getAllNotesInternal fs
    let l1 := match tagsArg with
      | none => l0
      | some ta => if ta = [] then l0 else l0.filter (tagArgMatches ta)
    let l2 := match categoryArg with
      | none => l1
      | some c => if c = [] then l1 else l1.filter (categoryMatches c)
    let l3 := match keywordArg with
      | none => l2
      | some k => if k = [] then l2 else l2.filter (keywordMatches k)
    .ok l3
  else .error .permission

/-- `getNoteById(role, noteId)` from src/unnamed/part_004; `.ok none`
models the `null` returned on `ENOENT`. -/
def getNoteById (role noteId : List Char) (fs : FS) : Except NoteErr (Option Note) :=
  if isAuthorized role "read".data then
    if pathCheck noteId then
      match lookupFS fs (noteKey noteId) with
      | none => .ok none
      | some raw => .ok (some (parseNoteContent raw (noteKey noteId) rootSegs))
    else .error .invalidPath
  else .error .permission

structure CreateRes where
  id : List Char
  title : List Char
  path : List Char
  created : List Char
deriving DecidableEq

/-- `createNote(role, title, content, tags, category, author)` from
src/unnamed/part_004; `today` is the current date string that
`new Date().toISOString().split('T')[0]` produces. -/
def createNote (role title content : List Char) (tags : List (List Char))
    (category author today : List Char) (fs : FS) : Except NoteErr CreateRes × FS :=
  if isAuthorized role "create".data then
    let filename := today ++ '_' :: (slugOf title ++ ".md".data)
    let fileKey := normSegs (rootSegs ++ splitSegs category ++ splitSegs filename)
    let metadata : MetaMap :=
      [("date".data, .str today), ("tags".data, .list tags),
       ("related".data, .list []), ("author".data, .str author)]
    (.ok { id := joinSegs (fileKey.drop rootSegs.length), title := title,
           path := renderAbs fileKey, created := today },
     writeFS fs fileKey (formatNoteContent metadata title content))
  else (.error .permission, fs)

/-- JavaScript `x || d` for an optional string (absent or empty falls back). -/
def jsOrStr (o : Option (List Char)) (d : List Char) : List Char :=
  match o with
  | none => d
  | some s => if s = [] then d else s

structure UpdRes where
  id : List Char
  title : List Char
  updated : List Char
deriving DecidableEq

/-- `updateNote(role, noteId, title, content, tags)` from
src/unnamed/part_004; `.ok none` models the `null` returned on `ENOENT`. -/
def updateNote (role noteId : List Char) (titleArg contentArg : Option (List Char))
    (tagsArg : Option (List (List Char))) (today : List Char) (fs : FS) :
    Except NoteErr (Option UpdRes) × FS :=
  if isAuthorized role "update".data then
    if pathCheck noteId then
      match lookupFS fs (noteKey noteId) with
      | none => (.ok none, fs)
      | some raw =>
        let note := parseNoteContent raw (noteKey noteId) rootSegs
        let md1 := setMeta note.metadata "lastModified".data (.str today)
        let md2 := match tagsArg with
          | some ts => setMeta md1 "tags".data (.list ts)
          | none => md1
        let t := jsOrStr titleArg note.title
        let c := jsOrStr contentArg note.content
        (.ok (some { id := noteId, title := t, updated := today }),
         writeFS fs (noteKey noteId) (formatNoteContent md2 t c))
    else (.error .invalidPath, fs)
  else (.error .permission, fs)

structure AppendRes where
  id : List Char
  message : List Char
deriving DecidableEq

/-- `appendToNote(role, noteId, content)` from src/unnamed/part_004. -/
def appendToNote (role noteId content : List Char) (today : List Char) (fs : FS) :
    Except NoteErr (Option AppendRes) × FS :=
  if isAuthorized role "update".data then
    if pathCheck noteId then
      match lookupFS fs (noteKey noteId) with
      | none => (.ok none, fs)
      | some raw =>
        let note := parseNoteContent raw (noteKey noteId) rootSegs
        let md1 := setMeta note.metadata "lastModified".data (.str today)
        let c := note.content ++ '\n' :: '\n' :: content
        (.ok (some { id := noteId, message := "Content appended successfully".data }),
         writeFS fs (noteKey noteId) (formatNoteContent md1 note.title c))
    else (.error .invalidPath, fs)
  else (.error .permission, fs)

structure DelRes where
  message : List Char
  id : Option (List Char)
deriving DecidableEq

/-- `deleteNote(role, noteId, shouldArchive)` from src/unnamed/part_004.
Archiving renames the file to `archive/<basename>`; deleting unlinks it. -/
def deleteNote (role noteId : List Char) (shouldArchive : Bool) (fs : FS) :
    Except NoteErr (Option DelRes) × FS :=
  if isAuthorized role "delete".data then
    if pathCheck noteId then
      let key := noteKey noteId
      match lookupFS fs key with
      | none => (.ok none, fs)
      | some raw =>
        if shouldArchive then
          let fileName := key.getLastD []
          let archiveKey := normSegs (rootSegs ++ ["archive".data, fileName])
          (.ok (some { message := "Note archived".data,
                       id := some (joinSegs (archiveKey.drop rootSegs.length)) }),
           writeFS (removeFS fs key) archiveKey raw)
        else
          (.ok (some { message := "Note deleted".data, id := none }),
           removeFS fs key)
    else (.error .invalidPath, fs)
  else (.error .permission, fs)

/-! ## Search: src/unnamed/part_004 searchNotes -/

/-- Model of `undefined/date < bound` (a relational comparison with
`undefined` is always false). -/
def jsLtOpt (nd : Option (List Char)) (bound : List Char) : Bool :=
  match nd with
  | none => false
  | some d => lexLt d bound

def jsGtOpt (nd : Option (List Char)) (bound : List Char) : Bool :=
  match nd with
  | none => false
  | some d => lexLt bound d

/-- The date-range conjunct of the searchNotes filter:
`if (start && noteDate < start) return false;`
`if (end && noteDate > end) return false;`. -/
def dateRangeOk (dr : Option DateRange) (m : MetaMap) : Bool :=
  match dr with
  | none => true
  | some r =>
    let nd := metaDateOf m
    (match r.dstart with
     | none => true
     | some s => if s = [] then true else ! jsLtOpt nd s) &&
    (match r.dend with
     | none => true
     | some e => if e = [] then true else ! jsGtOpt nd e)

/-- The tags conjunct of the searchNotes filter:
`if (!note.metadata.tags) return false;` then ANY-membership. -/
def tagsFilterOk (tf : Option (List (List Char))) (m : MetaMap) : Bool :=
  match tf with
  | none => true
  | some ts =>
    if ts = [] then true
    else match lookupMeta m "tags".data with
      | none => false
      | some v => if jsFalsyY v then false else ts.any (fun tag => yIncludes v tag)

def categoryFilterOk (cf : Option (List Char)) (n : Note) : Bool :=
  match cf with
  | none => true
  | some c => if c = [] then true else categoryMatches c n

/-- The retention predicate of searchNotes (its `filter` callback). -/
def matchesSearch (query : List Char) (f : SearchFilters) (n : Note) : Bool :=
  if containsSub (toLowerList query) (toLowerList n.title) ||
     containsSub (toLowerList query) (toLowerList n.content) then
    tagsFilterOk f.tags n.metadata &&
    categoryFilterOk f.category n &&
    dateRangeOk f.dateRange n.metadata
  else false

/-- The relevance the searchNotes comparator computes: `g`-flagged
regular-expression match counts of the lower-cased query over the
lower-cased title and content. -/
def relevanceOf (query : List Char) (n : Note) : Nat :=
  countRegexMatches (toLowerList query) (toLowerList n.title) +
  countRegexMatches (toLowerList query) (toLowerList n.content)

/-- Relevance as the specification states it: non-overlapping
case-insensitive substring occurrences in title plus content. -/
def specRelevance (query : List Char) (n : Note) : Nat :=
  countOccur (toLowerList query) (toLowerList n.title) +
  countOccur (toLowerList query) (toLowerList n.content)

/-- Filter-and-rank stage of searchNotes over a decoded listing. -/
def searchNotesList (query : List Char) (f : SearchFilters) (allNotes : List Note) :
    List Note :=
  stableSortBy (fun a b => decide (relevanceOf query b < relevanceOf query a))
    (allNotes.filter (matchesSearch query f))

/-- `searchNotes(role, query, filters)` from src/unnamed/part_004 (note
that its guard checks the `read` permission). -/
def searchNotes (role query : List Char) (f : SearchFilters) (fs : FS) :
    Except NoteErr (List Note) :=
  if isAuthorized role "read".data then
    .ok (searchNotesList query f (getAllNotesInternal fs))
  else .error .permission

inductive CtrlErr where
  | validation
  | store (e : NoteErr)
deriving DecidableEq

/-- Modelled from the spec: the create entry point of
`src/controllers/notesController.js`, which is absent from the sources
(only its caller src/routes/notesRoutes.js is present).  Per the
specification, `create` requires non-empty `title` and `content` and both
permission and validation checks happen before any filesystem access; the
parallel inline handler in src/index.js validates the same way
(`if (!title || !content) return 400`). -/
def controllerCreateNote (role title content : List Char) (tags : List (List Char))
    (category author today : List Char) (fs : FS) : Except CtrlErr CreateRes × FS :=
  if title = [] ∨ content = [] then (.error .validation, fs)
  else
    match createNote role title content tags category author today fs with
    | (.ok r, fs2) => (.ok r, fs2)
    | (.error e, fs2) => (.error (.store e), fs2)

deriving instance DecidableEq for Except

/-- The regular-expression metacharacters of JavaScript. -/
def isRegexMeta (c : Char) : Bool :=
  c = '.' || c = '*' || c = '+' || c = '?' || c = '^' || c = '$' || c = '(' ||
  c = ')' || c = '[' || c = ']' || c = '\x7b' || c = '\x7d' || c = '|' || c = '\\'

def cexNoteA : Note :=
  { id := "topics/a.md".data, path := "/app/notes/topics/a.md".data,
    title := "a".data, content := "x.bcdefg.".data, metadata := [] }

def cexNoteB : Note :=
  { id := "topics/b.md".data, path := "/app/notes/topics/b.md".data,
    title := "b".data, content := "...".data, metadata := [] }

def metaLines (m : MetaMap) : List (List Char) :=
  (m.map entryLines).flatten

/-! ## Theorems -/

/-! ## Basic lemmas about the utilities -/

theorem isPrefixList_append_self [DecidableEq α] (a b : List α) :
    isPrefixList a (a ++ b) = true := by
  induction a with
  | nil => rfl
  | cons x xs ih => simp [isPrefixList, ih]

theorem isPrefixList_iff_append [DecidableEq α] (a s : List α) :
    isPrefixList a s = true ↔ ∃ t, s = a ++ t := by
  induction a generalizing s with
  | nil => simp [isPrefixList]
  | cons x xs ih =>
    cases s with
    | nil =>
      simp [isPrefixList]
    | cons y ys =>
      constructor
      · intro h
        simp only [isPrefixList] at h
        split at h
        · next hxy =>
          subst hxy
          rcases (ih ys).1 h with ⟨t, rfl⟩
          exact ⟨t, rfl⟩
        · exact absurd h (by simp)
      · rintro ⟨t, ht⟩
        simp only [List.cons_append, List.cons.injEq] at ht
        obtain ⟨rfl, rfl⟩ := ht
        simp [isPrefixList, isPrefixList_append_self]

theorem mem_of_isPrefixList [DecidableEq α] {a s : List α} (h : isPrefixList a s = true)
    {x : α} (hx : x ∈ a) : x ∈ s := by
  rcases (isPrefixList_iff_append a s).1 h with ⟨t, rfl⟩
  exact List.mem_append_left t hx

theorem isPrefixList_drop_eq [DecidableEq α] (a b : List α) :
    (a ++ b).drop a.length = b := by
  induction a with
  | nil => rfl
  | cons x xs ih => simp [ih]

theorem splitFirst_here [DecidableEq α] (sep s : List α) (h : isPrefixList sep s = true) :
    splitFirst sep s = some ([], s.drop sep.length) := by
  cases s with
  | nil =>
    cases sep with
    | nil => rfl
    | cons x xs => simp [isPrefixList] at h
  | cons b bs => simp [splitFirst, h]

theorem splitFirst_skip_one [DecidableEq α] (sep : List α) (b : α) (bs : List α)
    (h : isPrefixList sep (b :: bs) = false) :
    splitFirst sep (b :: bs) =
      (splitFirst sep bs).map (fun p => (b :: p.1, p.2)) := by
  simp only [splitFirst, h]
  cases splitFirst sep bs with
  | none => rfl
  | some p => rfl

/-- Scanning past characters that all differ from the head of the separator
relocates the split point unchanged. -/
theorem splitFirst_skip (s₀ : α) [DecidableEq α] (sep' l rest : List α)
    (h : ∀ a ∈ l, a ≠ s₀) :
    splitFirst (s₀ :: sep') (l ++ rest) =
      (splitFirst (s₀ :: sep') rest).map (fun p => (l ++ p.1, p.2)) := by
  induction l with
  | nil =>
    simp only [List.nil_append]
    cases splitFirst (s₀ :: sep') rest with
    | none => rfl
    | some p => rfl
  | cons c cs ih =>
    have hc : c ≠ s₀ := h c (List.mem_cons_self c cs)
    have hpre : isPrefixList (s₀ :: sep') (c :: (cs ++ rest)) = false := by
      simp only [isPrefixList]
      exact if_neg (fun hh => hc hh.symm)
    rw [List.cons_append, splitFirst_skip_one _ _ _ hpre,
      ih (fun a ha => h a (List.mem_cons_of_mem c ha))]
    cases splitFirst (s₀ :: sep') rest with
    | none => rfl
    | some p => rfl

theorem splitOnChar_ne_nil (sep : Char) (l : List Char) : splitOnChar sep l ≠ [] := by
  cases l with
  | nil => simp [splitOnChar]
  | cons c rest =>
    simp only [splitOnChar]
    cases h : splitOnChar sep rest with
    | nil => simp
    | cons a b =>
      by_cases hcs : c = sep <;> simp [hcs]

theorem splitOnChar_noSep (sep : Char) (l : List Char) (h : ∀ a ∈ l, a ≠ sep) :
    splitOnChar sep l = [l] := by
  induction l with
  | nil => rfl
  | cons c cs ih =>
    have hc : c ≠ sep := h c (List.mem_cons_self c cs)
    simp only [splitOnChar, ih (fun a ha => h a (List.mem_cons_of_mem c ha))]
    simp [hc]

theorem splitOnChar_append (sep : Char) (l rest : List Char) (h : ∀ a ∈ l, a ≠ sep) :
    splitOnChar sep (l ++ sep :: rest) = l :: splitOnChar sep rest := by
  induction l with
  | nil =>
    simp only [List.nil_append, splitOnChar]
    cases hs : splitOnChar sep rest with
    | nil => exact absurd hs (splitOnChar_ne_nil sep rest)
    | cons a b => simp
  | cons c cs ih =>
    have hc : c ≠ sep := h c (List.mem_cons_self c cs)
    have ih2 := ih (fun a ha => h a (List.mem_cons_of_mem c ha))
    simp [splitOnChar, ih2, hc]

theorem joinWith_cons (sep : List Char) (l : List Char) (ls : List (List Char))
    (h : ls ≠ []) : joinWith sep (l :: ls) = l ++ sep ++ joinWith sep ls := by
  cases ls with
  | nil => exact absurd rfl h
  | cons a b => rfl

theorem trimList_cons_ws (c : Char) (s : List Char) (h : c.isWhitespace = true) :
    trimList (c :: s) = trimList s := by
  simp [trimList, List.dropWhile, h]

theorem trimList_cons_not_ws (c : Char) (s : List Char) (h : c.isWhitespace = false) :
    trimList (c :: s) = ((((c :: s).reverse).dropWhile Char.isWhitespace)).reverse := by
  simp [trimList, List.dropWhile, h]

/-- Trichotomy for the strict lexicographic order. -/
theorem lexLt_false_iff (a b : List Char) :
    lexLt a b = false ↔ (lexLt b a = true ∨ b = a) := by
  induction a generalizing b with
  | nil =>
    cases b with
    | nil => simp [lexLt]
    | cons y ys => simp [lexLt]
  | cons x xs ih =>
    cases b with
    | nil => simp [lexLt]
    | cons y ys =>
      rcases lt_trichotomy x y with hxy | hxy | hxy
      · simp [lexLt, hxy, lt_asymm hxy, Ne.symm (ne_of_lt hxy)]
      · subst hxy
        simp [lexLt, lt_irrefl, ih ys]
      · simp [lexLt, hxy, lt_asymm hxy, ne_of_lt hxy]

/-- Totality link between the strict and reflexive lexicographic orders. -/
theorem lexLt_false_iff_le (a b : List Char) :
    lexLt a b = false ↔ lexLe b a = true := by
  rw [lexLt_false_iff]
  simp [lexLe, Bool.or_eq_true, beq_iff_eq]

theorem dropWhile_length_le (p : α → Bool) (l : List α) :
    (l.dropWhile p).length ≤ l.length := by
  induction l with
  | nil => simp [List.dropWhile]
  | cons c cs ih =>
    simp only [List.dropWhile]
    split
    · exact Nat.le_succ_of_le ih
    · exact Nat.le_refl _

theorem reMatchAt_length {p t r : List Char} (h : reMatchAt p t = some r) :
    r.length + p.length = t.length := by
  induction p generalizing t with
  | nil =>
    simp only [reMatchAt, Option.some.injEq] at h
    subst h; simp
  | cons x xs ih =>
    cases t with
    | nil => simp [reMatchAt] at h
    | cons c cs =>
      simp only [reMatchAt] at h
      split at h
      · have := ih h
        simp only [List.length_cons]
        omega
      · exact absurd h (by simp)

/-! ## Path rendering lemmas -/

theorem isPrefixList_self [DecidableEq α] (a : List α) : isPrefixList a a = true := by
  have h := isPrefixList_append_self a []
  simpa using h

theorem joinWith_append (sep : List Char) (A C : List (List Char))
    (hA : A ≠ []) (hC : C ≠ []) :
    joinWith sep (A ++ C) = joinWith sep A ++ sep ++ joinWith sep C := by
  induction A with
  | nil => exact absurd rfl hA
  | cons a A' ih =>
    cases A' with
    | nil =>
      simp only [List.nil_append, List.cons_append]
      rw [joinWith_cons sep a C hC]
      rfl
    | cons b B =>
      have hA' : (b :: B : List (List Char)) ≠ [] := by simp
      rw [List.cons_append, joinWith_cons sep a ((b :: B) ++ C) (by simp),
        ih hA', joinWith_cons sep a (b :: B) hA']
      simp [List.append_assoc]

theorem renderAbs_mono (A C : List (List Char)) :
    isPrefixList (renderAbs A) (renderAbs (A ++ C)) = true := by
  cases C with
  | nil =>
    simp only [List.append_nil]
    exact isPrefixList_self _
  | cons c C' =>
    cases A with
    | nil => simp [renderAbs, joinSegs, isPrefixList]
    | cons a A' =>
      unfold renderAbs joinSegs
      rw [joinWith_append _ _ _ (by simp) (by simp)]
      simp only [isPrefixList, if_pos rfl]
      rw [List.append_assoc]
      exact isPrefixList_append_self _ _

theorem normSegs_rootSegs : normSegs rootSegs = rootSegs := by decide

/-- Every id whose canonical path stays under the canonical root passes the
startsWith guard. -/
theorem pathCheck_of_under (noteId : List Char) (h : isUnderRoot noteId = true) :
    pathCheck noteId = true := by
  rcases (isPrefixList_iff_append _ _).1 h with ⟨rest, hres⟩
  unfold pathCheck
  rw [normSegs_rootSegs, hres]
  exact renderAbs_mono rootSegs rest

/-! ## Filesystem lemmas -/

theorem lookupFS_removeFS_self (fs : FS) (k : List (List Char)) :
    lookupFS (removeFS fs k) k = none := by
  induction fs with
  | nil => rfl
  | cons e es ih =>
    simp only [removeFS]
    split
    · exact ih
    · next hne =>
      simp only [lookupFS]
      rw [if_neg hne]
      exact ih

theorem lookupFS_removeFS_ne (fs : FS) (k k2 : List (List Char)) (h : k2 ≠ k) :
    lookupFS (removeFS fs k) k2 = lookupFS fs k2 := by
  induction fs with
  | nil => rfl
  | cons e es ih =>
    simp only [removeFS, lookupFS]
    split
    · next heq =>
      rw [ih, if_neg (by rw [heq]; exact fun hh => h hh.symm)]
    · next hne =>
      by_cases he2 : e.fst = k2 <;> simp [lookupFS, he2, ih]

theorem lookupFS_append (l1 l2 : FS) (k : List (List Char)) :
    lookupFS (l1 ++ l2) k = (lookupFS l1 k).elim (lookupFS l2 k) some := by
  induction l1 with
  | nil => rfl
  | cons e es ih =>
    simp only [List.cons_append, lookupFS]
    by_cases he : e.fst = k <;> simp [he, ih]

theorem lookupFS_writeFS_self (fs : FS) (k : List (List Char)) (v : List Char) :
    lookupFS (writeFS fs k v) k = some v := by
  unfold writeFS
  rw [lookupFS_append, lookupFS_removeFS_self]
  simp [lookupFS]

theorem lookupFS_writeFS_ne (fs : FS) (k k2 : List (List Char)) (v : List Char)
    (h : k2 ≠ k) : lookupFS (writeFS fs k v) k2 = lookupFS fs k2 := by
  unfold writeFS
  rw [lookupFS_append, lookupFS_removeFS_ne fs k k2 h]
  cases hl : lookupFS fs k2 with
  | none => simp [lookupFS, Ne.symm h]
  | some v2 => rfl

/-- C2 counterexample: the id `../notesx/evil.md` canonicalizes to
`/app/notesx/evil.md`, which is not a descendant of `/app/notes`, yet the
`startsWith` guard accepts it because the string `/app/notes` is a
character prefix of `/app/notesx/evil.md`. -/
theorem c2_path_confinement_counterexample :
    pathCheck "../notesx/evil.md".data = true ∧
    isUnderRoot "../notesx/evil.md".data = false := by
  decide

/-- C2 (amended): every id whose canonical path is a descendant of (or
equal to) the canonical root passes the check, and hence the path error is
raised only for ids whose canonical path lies outside the root; when the
check fails, every id-taking operation rejects with the path error before
touching the file (the state is returned unchanged).  The converse of the
claim fails: the guard is a character-prefix test, so sibling paths such as
`/app/notesx/...` also pass (see the counterexample). -/
theorem c2_path_confinement_amended (noteId : List Char) (fs : FS) :
    (isUnderRoot noteId = true → pathCheck noteId = true) ∧
    (pathCheck noteId = false → isUnderRoot noteId = false) ∧
    (pathCheck noteId = false →
      getNoteById "admin".data noteId fs = .error .invalidPath ∧
      updateNote "admin".data noteId none none none "2025-01-01".data fs =
        (.error .invalidPath, fs) ∧
      appendToNote "admin".data noteId "x".data "2025-01-01".data fs =
        (.error .invalidPath, fs) ∧
      deleteNote "admin".data noteId false fs = (.error .invalidPath, fs)) := by
  refine ⟨pathCheck_of_under noteId, ?_, ?_⟩
  · intro hpc
    cases hu : isUnderRoot noteId
    · rfl
    · rw [pathCheck_of_under noteId hu] at hpc
      exact absurd hpc (by simp)
  · intro hpc
    have hread : isAuthorized "admin".data "read".data = true := by decide
    have hupd : isAuthorized "admin".data "update".data = true := by decide
    have hdel : isAuthorized "admin".data "delete".data = true := by decide
    refine ⟨?_, ?_, ?_, ?_⟩
    · unfold getNoteById
      rw [if_pos hread, if_neg (by simp [hpc])]
    · unfold updateNote
      rw [if_pos hupd, if_neg (by simp [hpc])]
    · unfold appendToNote
      rw [if_pos hupd, if_neg (by simp [hpc])]
    · unfold deleteNote
      rw [if_pos hdel, if_neg (by simp [hpc])]

theorem c2_path_confinement_witness :
    pathCheck "topics/a.md".data = true ∧
    getNoteById "admin".data "../../etc/passwd".data [] = .error .invalidPath := by
  constructor
  · exact (c2_path_confinement_amended "topics/a.md".data []).1 (by decide)
  · exact ((c2_path_confinement_amended "../../etc/passwd".data []).2.2 (by decide)).1

/-- C3: with role `analytics` the authorization gate passes for the read
operations (list, get, search: they never return the permission error,
and the listing and search succeed outright), while every mutating
operation (create, update, append, delete/archive) fails with the
permission error and leaves the filesystem untouched. -/
theorem c3_analytics_permission_matrix (fs : FS)
    (noteId q title content author category today : List Char)
    (tags : List (List Char)) (ta ca ka titleArg contentArg : Option (List Char))
    (tagsArg : Option (List (List Char))) (f : SearchFilters) (arch : Bool) :
    (∃ l, getAllNotes "analytics".data ta ca ka fs = .ok l) ∧
    getNoteById "analytics".data noteId fs ≠ .error .permission ∧
    (∃ l, searchNotes "analytics".data q f fs = .ok l) ∧
    createNote "analytics".data title content tags category author today fs =
      (.error .permission, fs) ∧
    updateNote "analytics".data noteId titleArg contentArg tagsArg today fs =
      (.error .permission, fs) ∧
    appendToNote "analytics".data noteId content today fs =
      (.error .permission, fs) ∧
    deleteNote "analytics".data noteId arch fs = (.error .permission, fs) := by
  have hread : isAuthorized "analytics".data "read".data = true := by decide
  have hcreate : ¬ isAuthorized "analytics".data "create".data = true := by decide
  have hupd : ¬ isAuthorized "analytics".data "update".data = true := by decide
  have hdel : ¬ isAuthorized "analytics".data "delete".data = true := by decide
  refine ⟨?_, ?_, ?_, ?_, ?_, ?_, ?_⟩
  · unfold getAllNotes
    rw [if_pos hread]
    exact ⟨_, rfl⟩
  · unfold getNoteById
    rw [if_pos hread]
    split
    · split <;> simp
    · simp
  · unfold searchNotes
    rw [if_pos hread]
    exact ⟨_, rfl⟩
  · unfold createNote
    rw [if_neg hcreate]
  · unfold updateNote
    rw [if_neg hupd]
  · unfold appendToNote
    rw [if_neg hupd]
  · unfold deleteNote
    rw [if_neg hdel]

/-! ## Canonical keys of plain category/name ids -/

theorem foldl_normStep_plain (segs : List (List Char)) (init : List (List Char))
    (h : ∀ s ∈ segs, s ≠ [] ∧ s ≠ ".".data ∧ s ≠ "..".data) :
    segs.foldl normStep init = init ++ segs := by
  induction segs generalizing init with
  | nil => simp
  | cons s ss ih =>
    obtain ⟨h1, h2, h3⟩ := h s (List.mem_cons_self s ss)
    have hstep : normStep init s = init ++ [s] := by
      unfold normStep
      rw [if_neg (fun hor => hor.elim h1 h2), if_neg h3]
    rw [List.foldl_cons, hstep,
      ih (init ++ [s]) (fun x hx => h x (List.mem_cons_of_mem s hx))]
    simp

theorem normSegs_root_pair (c n : List Char)
    (hc : c ≠ [] ∧ c ≠ ".".data ∧ c ≠ "..".data)
    (hn : n ≠ [] ∧ n ≠ ".".data ∧ n ≠ "..".data) :
    normSegs (rootSegs ++ [c, n]) = rootSegs ++ [c, n] := by
  unfold normSegs
  rw [List.foldl_append,
    (show rootSegs.foldl normStep [] = rootSegs from normSegs_rootSegs)]
  refine foldl_normStep_plain [c, n] rootSegs ?_
  intro s hs
  simp only [List.mem_cons, List.not_mem_nil, or_false] at hs
  rcases hs with rfl | rfl
  · exact hc
  · exact hn

theorem noteKey_catName (cat name : List Char)
    (hc1 : cat ≠ []) (hc2 : cat ≠ ".".data) (hc3 : cat ≠ "..".data)
    (hc4 : ∀ c ∈ cat, c ≠ '/')
    (h1 : name ≠ []) (h2 : name ≠ ".".data) (h3 : name ≠ "..".data)
    (h4 : ∀ c ∈ name, c ≠ '/') :
    noteKey (cat ++ '/' :: name) = rootSegs ++ [cat, name] := by
  unfold noteKey splitSegs
  rw [splitOnChar_append '/' cat name hc4, splitOnChar_noSep '/' name h4]
  exact normSegs_root_pair cat name ⟨hc1, hc2, hc3⟩ ⟨h1, h2, h3⟩

theorem getLastD_append_pair (l : List (List Char)) (c n d : List Char) :
    (l ++ [c, n]).getLastD d = n := by
  induction l generalizing d with
  | nil => rfl
  | cons x xs ih =>
    rw [List.cons_append, List.getLastD_cons]
    exact ih x

theorem getLastD_root_pair (c n : List Char) :
    (rootSegs ++ [c, n]).getLastD [] = n :=
  getLastD_append_pair rootSegs c n []

theorem joinSegs_pair (a n : List Char) : joinSegs [a, n] = a ++ '/' :: n := by
  show a ++ ['/'] ++ joinWith ['/'] [n] = a ++ '/' :: n
  simp [joinWith]

theorem parseNoteContent_id (raw : List Char) (f r : List (List Char)) :
    (parseNoteContent raw f r).id = joinSegs (f.drop r.length) := by
  unfold parseNoteContent
  cases hs : splitFrontMatter raw with
  | none => rfl
  | some p =>
    obtain ⟨y, body⟩ := p
    cases hl : loadYaml y with
    | none => simp [hl]
    | some m => simp [hl]

theorem parseNoteContent_path (raw : List Char) (f r : List (List Char)) :
    (parseNoteContent raw f r).path = renderAbs f := by
  unfold parseNoteContent
  cases hs : splitFrontMatter raw with
  | none => rfl
  | some p =>
    obtain ⟨y, body⟩ := p
    cases hl : loadYaml y with
    | none => simp [hl]
    | some m => simp [hl]

/-- The decoded title, content and metadata depend on the raw text and the
file basename only, not on the directory the file is in. -/
theorem parseNoteContent_fields_congr (raw : List Char) (f1 f2 r1 r2 : List (List Char))
    (h : f1.getLastD [] = f2.getLastD []) :
    (parseNoteContent raw f1 r1).title = (parseNoteContent raw f2 r2).title ∧
    (parseNoteContent raw f1 r1).content = (parseNoteContent raw f2 r2).content ∧
    (parseNoteContent raw f1 r1).metadata = (parseNoteContent raw f2 r2).metadata := by
  have h' : f1.getLast?.getD ([] : List Char) = f2.getLast?.getD ([] : List Char) := by
    rw [← List.getLastD_eq_getLast?, ← List.getLastD_eq_getLast?]
    exact h
  unfold parseNoteContent
  cases hs : splitFrontMatter raw with
  | none => simp [h, h']
  | some p =>
    obtain ⟨y, body⟩ := p
    cases hl : loadYaml y with
    | none => simp [hl, h, h']
    | some m => simp [hl, h, h']

/-- C4: archiving an existing note `topics/<name>` moves the file under
`archive/` keeping its filename: the operation returns the new id
`archive/<name>`, reading the old id afterwards yields NotFound (null), and
the note decoded from the new id has the same title, content and metadata
as the one decoded from the original file, with only the id changed. -/
theorem c4_archive_postcondition (fs : FS) (name raw role1 role2 : List Char)
    (h1 : name ≠ []) (h2 : name ≠ ".".data) (h3 : name ≠ "..".data)
    (h4 : ∀ c ∈ name, c ≠ '/')
    (hdel : isAuthorized role1 "delete".data = true)
    (hread : isAuthorized role2 "read".data = true)
    (hfile : lookupFS fs (rootSegs ++ ["topics".data, name]) = some raw) :
    (deleteNote role1 ("topics/".data ++ name) true fs).fst =
      .ok (some { message := "Note archived".data,
                  id := some ("archive/".data ++ name) }) ∧
    getNoteById role2 ("topics/".data ++ name)
        (deleteNote role1 ("topics/".data ++ name) true fs).snd = .ok none ∧
    (∃ n2, getNoteById role2 ("archive/".data ++ name)
        (deleteNote role1 ("topics/".data ++ name) true fs).snd = .ok (some n2) ∧
      n2.id = "archive/".data ++ name ∧
      n2.title = (parseNoteContent raw (rootSegs ++ ["topics".data, name]) rootSegs).title ∧
      n2.content = (parseNoteContent raw (rootSegs ++ ["topics".data, name]) rootSegs).content ∧
      n2.metadata = (parseNoteContent raw (rootSegs ++ ["topics".data, name]) rootSegs).metadata) := by
  have hkeyT : noteKey ("topics/".data ++ name) = rootSegs ++ ["topics".data, name] :=
    noteKey_catName "topics".data name (by decide) (by decide) (by decide) (by decide)
      h1 h2 h3 h4
  have hkeyA : noteKey ("archive/".data ++ name) = rootSegs ++ ["archive".data, name] :=
    noteKey_catName "archive".data name (by decide) (by decide) (by decide) (by decide)
      h1 h2 h3 h4
  have hunderT : pathCheck ("topics/".data ++ name) = true := by
    refine pathCheck_of_under _ ?_
    unfold isUnderRoot
    rw [hkeyT]
    exact isPrefixList_append_self _ _
  have hunderA : pathCheck ("archive/".data ++ name) = true := by
    refine pathCheck_of_under _ ?_
    unfold isUnderRoot
    rw [hkeyA]
    exact isPrefixList_append_self _ _
  have hsegne : ("archive".data : List Char) ≠ "topics".data := by decide
  have hne : rootSegs ++ ["topics".data, name] ≠ rootSegs ++ ["archive".data, name] := by
    intro hcontra
    have hcanc := List.append_cancel_left hcontra
    injection hcanc with hhead _
    exact hsegne hhead.symm
  have hnormA : normSegs (rootSegs ++ ["archive".data, name]) =
      rootSegs ++ ["archive".data, name] :=
    normSegs_root_pair _ _ ⟨by decide, by decide, by decide⟩ ⟨h1, h2, h3⟩
  have harcid : ("archive".data : List Char) ++ '/' :: name = "archive/".data ++ name := by
    rfl
  have hgl : (rootSegs ++ ["archive".data, name]).getLastD [] =
      (rootSegs ++ ["topics".data, name]).getLastD [] := by
    rw [getLastD_root_pair, getLastD_root_pair]
  have hdelres : deleteNote role1 ("topics/".data ++ name) true fs =
      (.ok (some { message := "Note archived".data,
                   id := some ("archive/".data ++ name) }),
       writeFS (removeFS fs (rootSegs ++ ["topics".data, name]))
         (rootSegs ++ ["archive".data, name]) raw) := by
    unfold deleteNote
    rw [if_pos hdel, if_pos hunderT, hkeyT]
    simp only [hfile, getLastD_root_pair, hnormA, isPrefixList_drop_eq, joinSegs_pair,
      harcid]
    simp
  refine ⟨?_, ?_, ?_⟩
  · rw [hdelres]
  · rw [hdelres]
    unfold getNoteById
    rw [if_pos hread, if_pos hunderT, hkeyT,
      lookupFS_writeFS_ne _ _ _ _ hne, lookupFS_removeFS_self]
  · rw [hdelres]
    unfold getNoteById
    rw [if_pos hread, if_pos hunderA, hkeyA, lookupFS_writeFS_self]
    refine ⟨parseNoteContent raw (rootSegs ++ ["archive".data, name]) rootSegs,
      rfl, ?_, ?_, ?_, ?_⟩
    · rw [parseNoteContent_id, isPrefixList_drop_eq, joinSegs_pair]
      exact harcid
    · exact (parseNoteContent_fields_congr raw _ _ rootSegs rootSegs hgl).1
    · exact (parseNoteContent_fields_congr raw _ _ rootSegs rootSegs hgl).2.1
    · exact (parseNoteContent_fields_congr raw _ _ rootSegs rootSegs hgl).2.2

theorem c4_archive_postcondition_witness :
    (deleteNote "admin".data "topics/x.md".data true
        [(rootSegs ++ ["topics".data, "x.md".data], "# X\n\nhello".data)]).fst =
      .ok (some { message := "Note archived".data, id := some "archive/x.md".data }) ∧
    getNoteById "admin".data "topics/x.md".data
        (deleteNote "admin".data "topics/x.md".data true
          [(rootSegs ++ ["topics".data, "x.md".data], "# X\n\nhello".data)]).snd =
      .ok none := by
  have h := c4_archive_postcondition
      [(rootSegs ++ ["topics".data, "x.md".data], "# X\n\nhello".data)]
      "x.md".data "# X\n\nhello".data "admin".data "admin".data
      (by decide) (by decide) (by decide) (by decide) (by decide) (by decide) (by decide)
  exact ⟨h.1, h.2.1⟩

/-! ## Slug lemmas -/

theorem collapseAux_chars (l : List Char) :
    ∀ (b : Bool), ∀ c ∈ collapseAux b l, isSlugChar c = true ∨ c = '_' := by
  induction l with
  | nil =>
    intro b c hc
    simp [collapseAux] at hc
  | cons a rest ih =>
    intro b c hc
    simp only [collapseAux] at hc
    by_cases ha : isSlugChar a = true
    · rw [if_pos ha] at hc
      rcases List.mem_cons.1 hc with rfl | hc2
      · exact Or.inl ha
      · exact ih false c hc2
    · rw [if_neg ha] at hc
      cases b with
      | true =>
        rw [if_pos rfl] at hc
        exact ih true c hc
      | false =>
        rw [if_neg (by simp)] at hc
        rcases List.mem_cons.1 hc with rfl | hc2
        · exact Or.inr rfl
        · exact ih true c hc2

theorem slugOf_chars (t : List Char) (c : Char) (hc : c ∈ slugOf t) :
    isSlugChar c = true ∨ c = '_' :=
  collapseAux_chars (toLowerList t) false c hc

theorem slugOf_no_slash (t : List Char) (c : Char) (hc : c ∈ slugOf t) : c ≠ '/' := by
  rcases slugOf_chars t c hc with hs | rfl
  · intro hcontra
    subst hcontra
    simp [isSlugChar, Char.isLower, Char.isDigit] at hs
  · decide

theorem createName_plain (x : List Char) (hx : ∀ c ∈ x, c ≠ '/') :
    ("2025-03-15".data ++ '_' :: (x ++ ".md".data)) ≠ [] ∧
    ("2025-03-15".data ++ '_' :: (x ++ ".md".data)) ≠ ".".data ∧
    ("2025-03-15".data ++ '_' :: (x ++ ".md".data)) ≠ "..".data ∧
    (∀ c ∈ ("2025-03-15".data ++ '_' :: (x ++ ".md".data)), c ≠ '/') := by
  refine ⟨?_, ?_, ?_, ?_⟩
  · intro h
    have h2 : ('2' :: ("025-03-15".data ++ '_' :: (x ++ ".md".data)) : List Char) = [] := h
    simp at h2
  · intro h
    have h2 : ('2' :: ("025-03-15".data ++ '_' :: (x ++ ".md".data)) : List Char) =
        ['.'] := h
    injection h2 with hh _
    exact absurd hh (by decide)
  · intro h
    have h2 : ('2' :: ("025-03-15".data ++ '_' :: (x ++ ".md".data)) : List Char) =
        ['.', '.'] := h
    injection h2 with hh _
    exact absurd hh (by decide)
  · intro c hc
    rcases List.mem_append.1 hc with hc1 | hc2
    · have hdate : ∀ d ∈ "2025-03-15".data, d ≠ '/' := by decide
      exact hdate c hc1
    · rcases List.mem_cons.1 hc2 with rfl | hc3
      · decide
      · rcases List.mem_append.1 hc3 with hc4 | hc5
        · exact hx c hc4
        · have hmd : ∀ d ∈ ".md".data, d ≠ '/' := by decide
          exact hmd c hc5

/-- C5 counterexample: the spec example expects
`topics/2025-03-15_quantum_computing.md`, but the trailing `!!` is a run of
non-alphanumeric characters and also collapses to `_`, so the code produces
`topics/2025-03-15_quantum_computing_.md`. -/
theorem c5_create_filename_counterexample :
    (createNote "admin".data "Quantum Computing!!".data "body".data ["q".data]
        "topics".data "bob".data "2025-03-15".data []).fst =
      .ok { id := "topics/2025-03-15_quantum_computing_.md".data,
            title := "Quantum Computing!!".data,
            path := "/app/notes/topics/2025-03-15_quantum_computing_.md".data,
            created := "2025-03-15".data } ∧
    "topics/2025-03-15_quantum_computing_.md".data ≠
      "topics/2025-03-15_quantum_computing.md".data := by
  decide

/-- C5 (amended): createNote builds the filename as
`{dateStr}_{slug}.md` where `slug` is the lower-cased title with every
maximal run of characters outside `[a-z0-9]` collapsed to a single
underscore, including a leading or trailing run; hence the example title
`"Quantum Computing!!"` on 2025-03-15 yields the id
`topics/2025-03-15_quantum_computing_.md`, with a trailing underscore
(not `topics/2025-03-15_quantum_computing.md` as the claim states). -/
theorem c5_create_filename_amended (title : List Char) (fs : FS) :
    (createNote "admin".data title "body".data [] "topics".data "bob".data
        "2025-03-15".data fs).fst =
      .ok { id := "topics/".data ++
              ("2025-03-15".data ++ '_' :: (slugOf title ++ ".md".data)),
            title := title,
            path := "/app/notes/topics/".data ++
              ("2025-03-15".data ++ '_' :: (slugOf title ++ ".md".data)),
            created := "2025-03-15".data } ∧
    slugOf "Quantum Computing!!".data = "quantum_computing_".data := by
  obtain ⟨hn1, hn2, hn3, hn4⟩ := createName_plain (slugOf title) (slugOf_no_slash title)
  have hcr : isAuthorized "admin".data "create".data = true := by decide
  have hsplitc : splitSegs "topics".data = ["topics".data] := by decide
  have hsplitf : splitSegs ("2025-03-15".data ++ '_' :: (slugOf title ++ ".md".data)) =
      [("2025-03-15".data ++ '_' :: (slugOf title ++ ".md".data))] :=
    splitOnChar_noSep '/' _ hn4
  have happ : rootSegs ++ ["topics".data] ++
      [("2025-03-15".data ++ '_' :: (slugOf title ++ ".md".data))] =
      rootSegs ++ ["topics".data,
        ("2025-03-15".data ++ '_' :: (slugOf title ++ ".md".data))] := by simp
  have hnorm : normSegs (rootSegs ++ ["topics".data,
      ("2025-03-15".data ++ '_' :: (slugOf title ++ ".md".data))]) =
      rootSegs ++ ["topics".data,
        ("2025-03-15".data ++ '_' :: (slugOf title ++ ".md".data))] :=
    normSegs_root_pair _ _ ⟨by decide, by decide, by decide⟩ ⟨hn1, hn2, hn3⟩
  constructor
  · unfold createNote
    rw [if_pos hcr]
    simp only [hsplitc, hsplitf, happ, hnorm, isPrefixList_drop_eq, joinSegs_pair]
    rfl
  · decide

/-- Off the prototype-chain property names, the throwing-aware model of
the authorization check agrees with the boolean `isAuthorized` used by the
store operations: the divergence is confined to the twelve names
`Object.prototype` contributes. -/
theorem isAuthorizedJs_agrees (role op : List Char)
    (h : role ∉ objectProtoProps) :
    isAuthorizedJs role op = .ok (isAuthorized role op) := by
  unfold isAuthorizedJs isAuthorized
  by_cases he : role = [] ∨ op = []
  · rw [if_pos he, if_pos he]
  · rw [if_neg he, if_neg he]
    cases hf : (PERMISSIONS.find? (fun e => e.fst == role)).map (fun e => e.snd) with
    | none =>
      show (if objectProtoProps.contains role = true then
          (.error .typeError : Except AuthErr Bool) else .ok false) = .ok false
      rw [if_neg (fun hmem => h (List.mem_of_elem_eq_true hmem))]
    | some ps => rfl

/-- C10: counterexample to deny-by-default-and-never-throws.  The role
`toString` is not a key of the permissions table, yet the JavaScript
lookup `PERMISSIONS['toString']` hits the inherited
`Object.prototype.toString`, a truthy non-array, so the falsy guard does
not fire and `permissions.includes(operation)` throws `TypeError` instead
of returning false. -/
theorem c10_authorization_counterexample :
    (∀ e ∈ PERMISSIONS, e.fst ≠ "toString".data) ∧
    isAuthorizedJs "toString".data "read".data = .error .typeError := by
  decide

/-- C10 (amended): the authorization check is deny-by-default on every
role name the prototype chain does not intercept: it returns false when
role or operation is missing (empty), for every role that is neither a
table key nor an `Object.prototype` property name, and for every
operation outside a listed role's permitted set; but for a non-empty
role among the inherited `Object.prototype` property names (with a
non-empty operation) it throws `TypeError` rather than returning
false. -/
theorem c10_authorization_amended (role op : List Char) :
    (role = [] ∨ op = [] → isAuthorizedJs role op = .ok false) ∧
    ((∀ e ∈ PERMISSIONS, e.fst ≠ role) → role ∉ objectProtoProps →
      isAuthorizedJs role op = .ok false) ∧
    (∀ ps, (PERMISSIONS.find? (fun e => e.fst == role)).map (fun e => e.snd) = some ps →
      op ∉ ps → isAuthorizedJs role op = .ok false) ∧
    (role ≠ [] → op ≠ [] → (∀ e ∈ PERMISSIONS, e.fst ≠ role) →
      role ∈ objectProtoProps → isAuthorizedJs role op = .error .typeError) := by
  refine ⟨?_, ?_, ?_, ?_⟩
  · intro h
    unfold isAuthorizedJs
    rw [if_pos h]
  · intro hkeys hproto
    unfold isAuthorizedJs
    by_cases he : role = [] ∨ op = []
    · rw [if_pos he]
    · rw [if_neg he]
      have hfind : PERMISSIONS.find? (fun e => e.fst == role) = none := by
        rw [List.find?_eq_none]
        intro x hx
        simp only [beq_iff_eq]
        exact hkeys x hx
      rw [hfind]
      show (if objectProtoProps.contains role = true then
          (.error .typeError : Except AuthErr Bool) else .ok false) = .ok false
      rw [if_neg (fun hmem => hproto (List.mem_of_elem_eq_true hmem))]
  · intro ps hps hop
    unfold isAuthorizedJs
    by_cases he : role = [] ∨ op = []
    · rw [if_pos he]
    · rw [if_neg he, hps]
      show Except.ok (ps.contains op) = Except.ok false
      cases hmem : ps.contains op with
      | false => rfl
      | true => exact absurd (List.mem_of_elem_eq_true hmem) hop
  · intro hr hop hkeys hproto
    unfold isAuthorizedJs
    rw [if_neg (by simp [hr, hop])]
    have hfind : PERMISSIONS.find? (fun e => e.fst == role) = none := by
      rw [List.find?_eq_none]
      intro x hx
      simp only [beq_iff_eq]
      exact hkeys x hx
    rw [hfind]
    show (if objectProtoProps.contains role = true then
        (.error .typeError : Except AuthErr Bool) else .ok false) = .error .typeError
    rw [if_pos (List.elem_eq_true_of_mem hproto)]

theorem c10_authorization_witness :
    isAuthorizedJs "ghost".data "read".data = .ok false ∧
    isAuthorizedJs "toString".data "read".data = .error .typeError ∧
    isAuthorizedJs [] "read".data = .ok false := by
  refine ⟨?_, ?_, ?_⟩
  · exact (c10_authorization_amended "ghost".data "read".data).2.1
      (by decide) (by decide)
  · exact (c10_authorization_amended "toString".data "read".data).2.2.2
      (by decide) (by decide) (by decide) (by decide)
  · exact (c10_authorization_amended [] "read".data).1 (Or.inl rfl)

/-- C9: create with an empty title or empty content fails with the
validation error before any filesystem access: the filesystem is returned
unchanged, so nothing is created or written.  The validation lives in the
create controller, modelled from the spec (see `controllerCreateNote`);
the store-level permission check likewise precedes every write. -/
theorem c9_create_validation (role title content : List Char)
    (tags : List (List Char)) (category author today : List Char) (fs : FS)
    (h : title = [] ∨ content = []) :
    controllerCreateNote role title content tags category author today fs =
      (.error .validation, fs) := by
  unfold controllerCreateNote
  rw [if_pos h]

theorem c9_create_validation_witness :
    controllerCreateNote "admin".data [] "body".data [] "topics".data "bob".data
      "2025-03-15".data [] = (.error .validation, []) :=
  c9_create_validation "admin".data [] "body".data [] "topics".data "bob".data
    "2025-03-15".data [] (Or.inl rfl)

/-! ## C7: the searchNotes date-range filter -/

theorem boundStart_iff (d s : List Char) :
    (s = [] ∨ jsLtOpt (some d) s = false) ↔ (¬ s = [] → lexLe s d = true) := by
  constructor
  · intro h hs
    rcases h with h | h
    · exact absurd h hs
    · exact (lexLt_false_iff_le d s).1 h
  · intro h
    by_cases hs : s = []
    · exact Or.inl hs
    · exact Or.inr ((lexLt_false_iff_le d s).2 (h hs))

theorem boundEnd_iff (d e : List Char) :
    (e = [] ∨ jsGtOpt (some d) e = false) ↔ (¬ e = [] → lexLe d e = true) := by
  constructor
  · intro h he
    rcases h with h | h
    · exact absurd h he
    · exact (lexLt_false_iff_le e d).1 h
  · intro h
    by_cases he : e = []
    · exact Or.inl he
    · exact Or.inr ((lexLt_false_iff_le e d).2 (h he))

/-- C7 counterexample: a note with no `metadata.date` is retained by
searchNotes even though a start bound is given, because the JavaScript
comparison `undefined < start` is false; the claim requires every such
note to be excluded as soon as a date bound is present. -/
theorem c7_date_filter_counterexample :
    metaDateOf ([] : MetaMap) = none ∧
    searchNotesList "q".data
      { tags := none, category := none,
        dateRange := some { dstart := some "2025-01-01".data, dend := none } }
      [{ id := "topics/c.md".data, path := "/app/notes/topics/c.md".data,
         title := "c".data, content := "q".data, metadata := [] }] =
      [{ id := "topics/c.md".data, path := "/app/notes/topics/c.md".data,
         title := "c".data, content := "q".data, metadata := [] }] := by
  decide

/-- C7 (amended): in searchNotes, a note that has a date is retained by the
date-range conjunct exactly when start ≤ date ≤ end (both bounds
inclusive, lexicographic string comparison, each bound checked only when
present and non-empty); a note with a missing date passes the date-range
conjunct unconditionally (it is not excluded).  Retention in searchNotes
implies the date-range conjunct holds. -/
theorem c7_date_filter_amended (r : DateRange) (m : MetaMap) :
    (metaDateOf m = none → dateRangeOk (some r) m = true) ∧
    (∀ d, metaDateOf m = some d →
      (dateRangeOk (some r) m = true ↔
        (∀ s, r.dstart = some s → s ≠ [] → lexLe s d = true) ∧
        (∀ e, r.dend = some e → e ≠ [] → lexLe d e = true))) ∧
    (∀ q f n, f.dateRange = some r → matchesSearch q f n = true →
      dateRangeOk (some r) n.metadata = true) := by
  refine ⟨?_, ?_, ?_⟩
  · intro hd
    obtain ⟨ds, de⟩ := r
    cases ds <;> cases de <;>
      simp [dateRangeOk, hd, jsLtOpt, jsGtOpt]
  · intro d hd
    obtain ⟨ds, de⟩ := r
    cases ds <;> cases de <;>
      simp [dateRangeOk, hd, boundStart_iff, boundEnd_iff]
  · intro q f n hf hm
    unfold matchesSearch at hm
    by_cases hq : (containsSub (toLowerList q) (toLowerList n.title) ||
        containsSub (toLowerList q) (toLowerList n.content)) = true
    · rw [if_pos hq] at hm
      simp only [Bool.and_eq_true] at hm
      rw [← hf]
      exact hm.2
    · rw [if_neg hq] at hm
      exact absurd hm (by simp)

theorem c7_date_filter_witness :
    dateRangeOk
      (some { dstart := some "2025-01-01".data, dend := some "2025-12-31".data })
      [("date".data, YVal.str "2025-03-15".data)] = true := by
  have h := (c7_date_filter_amended
      { dstart := some "2025-01-01".data, dend := some "2025-12-31".data }
      [("date".data, YVal.str "2025-03-15".data)]).2.1 "2025-03-15".data (by decide)
  refine h.mpr ⟨?_, ?_⟩
  · intro s hs _
    injection hs with hs2
    subst hs2
    decide
  · intro e he _
    injection he with he2
    subst he2
    decide

/-! ## C8: the category filter -/

theorem isPrefixList_nil_false [DecidableEq α] (p : List α) (hp : p ≠ []) :
    isPrefixList p [] = false := by
  cases p with
  | nil => exact absurd rfl hp
  | cons a as => rfl

/-- Scanning a slash-free chunk cannot start a `/`-headed match. -/
theorem containsSub_skip_noSlash (q s z : List Char) (h : ∀ x ∈ s, x ≠ '/') :
    containsSub ('/' :: q) (s ++ z) = containsSub ('/' :: q) z := by
  induction s with
  | nil => rfl
  | cons c cs ih =>
    have hc : c ≠ '/' := h c (List.mem_cons_self c cs)
    simp only [List.cons_append, containsSub, List.append_eq]
    rw [ih (fun x hx => h x (List.mem_cons_of_mem c hx))]
    have hpre : isPrefixList ('/' :: q) (c :: (cs ++ z)) = false := by
      simp only [isPrefixList]
      exact if_neg (fun hh => hc hh.symm)
    rw [hpre]
    simp

theorem containsSub_noSlash_false (q s : List Char) (h : ∀ x ∈ s, x ≠ '/') :
    containsSub ('/' :: q) s = false := by
  have h2 := containsSub_skip_noSlash q s [] h
  rw [List.append_nil] at h2
  rw [h2]
  rfl

/-- A slash-delimited pattern matches at a segment boundary exactly when
the whole first segments coincide. -/
theorem segBoundary : ∀ (cat a q t : List Char), (∀ x ∈ cat, x ≠ '/') →
    (∀ x ∈ a, x ≠ '/') →
    (isPrefixList (cat ++ '/' :: q) (a ++ '/' :: t) = true ↔
      (cat = a ∧ isPrefixList q t = true)) := by
  intro cat
  induction cat with
  | nil =>
    intro a q t _ ha
    cases a with
    | nil => simp [isPrefixList]
    | cons b bs =>
      have hb : b ≠ '/' := ha b (List.mem_cons_self b bs)
      constructor
      · intro h
        simp only [List.nil_append, List.cons_append, isPrefixList] at h
        rw [if_neg (fun hh => hb hh.symm)] at h
        exact absurd h (by simp)
      · rintro ⟨h1, _⟩
        exact absurd h1 (by simp)
  | cons x xs ih =>
    intro a q t hc ha
    cases a with
    | nil =>
      have hx : x ≠ '/' := hc x (List.mem_cons_self x xs)
      constructor
      · intro h
        simp only [List.cons_append, List.nil_append, isPrefixList] at h
        rw [if_neg hx] at h
        exact absurd h (by simp)
      · rintro ⟨h1, _⟩
        exact absurd h1 (by simp)
    | cons b bs =>
      by_cases hxb : x = b
      · subst hxb
        simp only [List.cons_append, isPrefixList, if_pos rfl, List.cons.injEq,
          true_and]
        exact ih bs q t (fun y hy => hc y (List.mem_cons_of_mem x hy))
          (fun y hy => ha y (List.mem_cons_of_mem x hy))
      · simp only [List.cons_append, isPrefixList, if_neg hxb, List.cons.injEq]
        constructor
        · intro h
          exact absurd h (by simp)
        · rintro ⟨⟨h1, _⟩, _⟩
          exact absurd h1 hxb

/-- Over a rendered absolute path, `path.includes('/' + cat + '/')` holds
exactly when `cat` equals one of the non-final (directory-level) path
segments. -/
theorem containsSub_slash_segs (cat : List Char) (segs : List (List Char))
    (hcat1 : cat ≠ []) (hcat2 : ∀ x ∈ cat, x ≠ '/')
    (hsegs : ∀ s ∈ segs, ∀ x ∈ s, x ≠ '/') :
    (containsSub ('/' :: (cat ++ ['/'])) (renderAbs segs) = true ↔
      cat ∈ segs.dropLast) := by
  induction segs with
  | nil =>
    simp only [renderAbs, joinSegs, joinWith, List.dropLast_nil, List.not_mem_nil,
      iff_false]
    simp only [containsSub, isPrefixList, if_pos rfl]
    simp [isPrefixList_nil_false (cat ++ ['/']) (by simp)]
  | cons a rest ih =>
    cases rest with
    | nil =>
      have hano : ∀ x ∈ a, x ≠ '/' := hsegs a (List.mem_cons_self a [])
      simp only [renderAbs, joinSegs, joinWith, List.dropLast_single,
        List.not_mem_nil, iff_false]
      simp only [containsSub, isPrefixList, if_pos rfl]
      have h1 : isPrefixList (cat ++ ['/']) a = false := by
        cases hp : isPrefixList (cat ++ ['/']) a with
        | false => rfl
        | true =>
          have : '/' ∈ a :=
            mem_of_isPrefixList hp (List.mem_append_right cat (by simp))
          exact absurd rfl (hano '/' this)
      rw [h1, containsSub_noSlash_false (cat ++ ['/']) a hano]
      simp
    | cons b bs =>
      have hano : ∀ x ∈ a, x ≠ '/' := hsegs a (List.mem_cons_self a (b :: bs))
      have hrest : ∀ s ∈ b :: bs, ∀ x ∈ s, x ≠ '/' :=
        fun s hs => hsegs s (List.mem_cons_of_mem a hs)
      have hjoin : joinSegs (a :: b :: bs) = a ++ '/' :: joinSegs (b :: bs) := by
        unfold joinSegs
        rw [joinWith_cons ['/'] a (b :: bs) (by simp)]
        simp
      simp only [renderAbs, hjoin, containsSub]
      rw [containsSub_skip_noSlash (cat ++ ['/']) a ('/' :: joinSegs (b :: bs)) hano]
      have hbound : isPrefixList ('/' :: (cat ++ ['/'])) ('/' :: (a ++ '/' :: joinSegs (b :: bs))) =
          isPrefixList (cat ++ '/' :: []) (a ++ '/' :: joinSegs (b :: bs)) := by
        simp [isPrefixList]
      rw [hbound]
      have hseg := segBoundary cat a [] (joinSegs (b :: bs)) hcat2 hano
      have hih := ih hrest
      simp only [renderAbs] at hih
      rw [List.dropLast_cons_of_ne_nil (by simp : (b :: bs : List (List Char)) ≠ [])]
      constructor
      · intro h
        rw [Bool.or_eq_true] at h
        rcases h with h1 | h2
        · obtain ⟨rfl, _⟩ := hseg.1 h1
          exact List.mem_cons_self _ _
        · exact List.mem_cons_of_mem a (hih.1 h2)
      · intro h
        rw [Bool.or_eq_true]
        rcases List.mem_cons.1 h with rfl | h2
        · exact Or.inl (hseg.2 ⟨rfl, rfl⟩)
        · exact Or.inr (hih.2 h2)

/-- C8 counterexample: a note stored at the nested path
`topics/projects/a.md` (first path segment under the root: `topics`) is
retained by the category filter `projects`, because the filter is a plain
substring test `path.includes('/projects/')` and not a first-segment
comparison. -/
theorem c8_category_filter_counterexample :
    (getAllNotes "admin".data none (some "projects".data) none
        [(rootSegs ++ ["topics".data, "projects".data, "a.md".data],
          "# A\n\nquantum".data)]).toOption.map
        (List.map (fun n => n.id)) =
      some ["topics/projects/a.md".data] ∧
    (splitOnChar '/' "topics/projects/a.md".data).headD [] ≠ "projects".data := by
  decide

/-- C8 (amended): the category filter used by both getAllNotes and
searchNotes retains a note exactly when `'/' + filter + '/'` occurs in the
note's full path: over a rendered absolute path this holds iff the filter
equals some directory-level path segment (any segment except the final
filename), not only the first segment under the repository root; a partial
segment never matches. -/
theorem c8_category_filter_amended (cat : List Char) (segs : List (List Char))
    (n : Note) (hpath : n.path = renderAbs segs)
    (hcat1 : cat ≠ []) (hcat2 : ∀ x ∈ cat, x ≠ '/')
    (hsegs : ∀ s ∈ segs, ∀ x ∈ s, x ≠ '/') :
    categoryMatches cat n = true ↔ cat ∈ segs.dropLast := by
  unfold categoryMatches
  rw [hpath]
  exact containsSub_slash_segs cat segs hcat1 hcat2 hsegs

theorem c8_category_filter_witness :
    categoryMatches "projects".data
      { id := "topics/projects/a.md".data,
        path := renderAbs ["app".data, "notes".data, "topics".data,
          "projects".data, "a.md".data],
        title := "A".data, content := "q".data, metadata := [] } = true := by
  have h := c8_category_filter_amended "projects".data
      ["app".data, "notes".data, "topics".data, "projects".data, "a.md".data]
      { id := "topics/projects/a.md".data,
        path := renderAbs ["app".data, "notes".data, "topics".data,
          "projects".data, "a.md".data],
        title := "A".data, content := "q".data, metadata := [] }
      rfl (by decide) (by decide) (by decide)
  exact h.mpr (by decide)

/-! ## C6: search relevance ranking -/

theorem insSorted_perm (gt : α → α → Bool) (x : α) (l : List α) :
    List.Perm (insSorted gt x l) (x :: l) := by
  induction l with
  | nil => exact List.Perm.refl _
  | cons y ys ih =>
    simp only [insSorted]
    split
    · exact (List.Perm.cons y ih).trans (List.Perm.swap x y ys)
    · exact List.Perm.refl _

theorem stableSortBy_perm (gt : α → α → Bool) (l : List α) :
    List.Perm (stableSortBy gt l) l := by
  induction l with
  | nil => exact List.Perm.refl _
  | cons x xs ih =>
    exact (insSorted_perm gt x (stableSortBy gt xs)).trans (List.Perm.cons x ih)

theorem insSorted_sorted (key : α → Nat) (x : α) (l : List α)
    (hl : List.Pairwise (fun a b => key b ≤ key a) l) :
    List.Pairwise (fun a b => key b ≤ key a)
      (insSorted (fun a b => decide (key b < key a)) x l) := by
  induction l with
  | nil => simp [insSorted]
  | cons y ys ih =>
    rcases List.pairwise_cons.1 hl with ⟨hy, hys⟩
    simp only [insSorted]
    split
    · next hgt =>
      have hxy : key x < key y := of_decide_eq_true hgt
      refine List.pairwise_cons.2 ⟨?_, ih hys⟩
      intro b hb
      rcases List.mem_cons.1 ((insSorted_perm _ x ys).mem_iff.mp hb) with rfl | hbys
      · exact le_of_lt hxy
      · exact hy b hbys
    · next hgt =>
      have hxy : ¬ key x < key y := by simpa using hgt
      refine List.pairwise_cons.2 ⟨?_, hl⟩
      intro b hb
      rcases List.mem_cons.1 hb with rfl | hbys
      · exact Nat.le_of_not_lt hxy
      · exact le_trans (hy b hbys) (Nat.le_of_not_lt hxy)

theorem stableSortBy_sorted (key : α → Nat) (l : List α) :
    List.Pairwise (fun a b => key b ≤ key a)
      (stableSortBy (fun a b => decide (key b < key a)) l) := by
  induction l with
  | nil => simp [stableSortBy]
  | cons x xs ih => exact insSorted_sorted key x _ ih

theorem insSorted_filter_ne (key : α → Nat) (x : α) (l : List α) (k : Nat)
    (hx : key x ≠ k) :
    (insSorted (fun a b => decide (key b < key a)) x l).filter
        (fun a => key a == k) =
      l.filter (fun a => key a == k) := by
  induction l with
  | nil => simp [insSorted, List.filter_cons, hx]
  | cons y ys ih =>
    simp only [insSorted]
    split
    · simp only [List.filter_cons, ih]
    · simp [List.filter_cons, hx]

theorem insSorted_filter_eq (key : α → Nat) (x : α) (l : List α) (k : Nat)
    (hx : key x = k) (hl : List.Pairwise (fun a b => key b ≤ key a) l) :
    (insSorted (fun a b => decide (key b < key a)) x l).filter
        (fun a => key a == k) =
      x :: l.filter (fun a => key a == k) := by
  induction l with
  | nil => simp [insSorted, List.filter_cons, hx]
  | cons y ys ih =>
    rcases List.pairwise_cons.1 hl with ⟨hy, hys⟩
    simp only [insSorted]
    split
    · next hgt =>
      have hxy : key x < key y := of_decide_eq_true hgt
      have hyk : (key y == k) = false := by
        rw [beq_eq_false_iff_ne]
        intro hk
        rw [hk, ← hx] at hxy
        exact lt_irrefl _ hxy
      simp only [List.filter_cons, hyk]
      simp only [Bool.false_eq_true, if_false]
      exact ih hys
    · simp [List.filter_cons, hx]

theorem stableSortBy_filter (key : α → Nat) (l : List α) (k : Nat) :
    (stableSortBy (fun a b => decide (key b < key a)) l).filter
        (fun a => key a == k) =
      l.filter (fun a => key a == k) := by
  induction l with
  | nil => rfl
  | cons x xs ih =>
    have hstep : stableSortBy (fun a b => decide (key b < key a)) (x :: xs) =
        insSorted (fun a b => decide (key b < key a)) x
          (stableSortBy (fun a b => decide (key b < key a)) xs) := rfl
    by_cases hx : key x = k
    · rw [hstep, insSorted_filter_eq key x _ k hx (stableSortBy_sorted key xs), ih,
        List.filter_cons]
      simp [hx]
    · rw [hstep, insSorted_filter_ne key x _ k hx, ih, List.filter_cons]
      simp [hx]

theorem reMatchAt_literal (p : List Char) (hp : ∀ c ∈ p, isRegexMeta c = false) :
    ∀ t, reMatchAt p t = if isPrefixList p t then some (t.drop p.length) else none := by
  induction p with
  | nil => intro t; simp [reMatchAt, isPrefixList]
  | cons x xs ih =>
    intro t
    cases t with
    | nil => simp [reMatchAt, isPrefixList]
    | cons c cs =>
      have hx : isRegexMeta x = false := hp x (List.mem_cons_self x xs)
      have hxdot : x ≠ '.' := by
        intro hcontra
        subst hcontra
        simp [isRegexMeta] at hx
      simp only [reMatchAt, reCharOk, if_neg hxdot]
      by_cases hxc : x = c
      · subst hxc
        rw [ih (fun d hd => hp d (List.mem_cons_of_mem x hd)) cs]
        simp [isPrefixList]
      · simp [hxc, isPrefixList]

theorem regexCount_eq_occurCount (p : List Char)
    (hp : ∀ c ∈ p, isRegexMeta c = false) :
    ∀ fuel t, regexCountAux p fuel t = occurCountAux p fuel t := by
  intro fuel
  induction fuel with
  | zero =>
    intro t
    cases t <;> rfl
  | succ n ih =>
    intro t
    cases t with
    | nil => rfl
    | cons c cs =>
      simp only [regexCountAux, occurCountAux, reMatchAt_literal p hp (c :: cs)]
      by_cases hpre : isPrefixList p (c :: cs) = true
      · rw [if_pos hpre, if_pos hpre]
        simp [ih]
      · rw [if_neg (by simp [hpre]), if_neg (by simp [hpre])]
        exact ih cs

theorem countRegexMatches_eq_countOccur (p t : List Char)
    (hp : ∀ c ∈ p, isRegexMeta c = false) :
    countRegexMatches p t = countOccur p t := by
  unfold countRegexMatches countOccur
  by_cases h0 : p = []
  · rw [if_pos h0, if_pos h0]
  · rw [if_neg h0, if_neg h0]
    exact regexCount_eq_occurCount p hp t.length t

theorem relevance_eq_spec (q : List Char) (n : Note)
    (hq : ∀ c ∈ toLowerList q, isRegexMeta c = false) :
    relevanceOf q n = specRelevance q n := by
  unfold relevanceOf specRelevance
  rw [countRegexMatches_eq_countOccur _ _ hq, countRegexMatches_eq_countOccur _ _ hq]

/-- C6 counterexample: with the query `.`, searchNotes builds
`new RegExp(query)` and ranks by regular-expression match count, where `.`
matches any character; on a corpus where note B contains the substring `.`
three times but note A only twice, the code returns A before B (A has more
characters), so the output is not in descending order of the claimed
substring-occurrence relevance. -/
theorem c6_search_ranking_counterexample :
    searchNotesList ".".data emptyFilters [cexNoteA, cexNoteB] =
      [cexNoteA, cexNoteB] ∧
    specRelevance ".".data cexNoteA < specRelevance ".".data cexNoteB := by
  decide

/-- C6 (amended): for queries whose lower-cased form contains no
regular-expression metacharacter (for these the regex match count equals
the non-overlapping case-insensitive substring count), searchNotes returns
a permutation of the retained notes that is sorted in descending order of
substring relevance, and notes of equal relevance keep the relative order
they had in the retained list (stable sort).  For other queries the code
ranks by regular-expression match count instead (see the counterexample),
and an invalid pattern makes `new RegExp` throw. -/
theorem c6_search_ranking_amended (q : List Char) (f : SearchFilters)
    (notes : List Note)
    (hq : ∀ c ∈ toLowerList q, isRegexMeta c = false) :
    List.Perm (searchNotesList q f notes) (notes.filter (matchesSearch q f)) ∧
    List.Pairwise (fun a b => specRelevance q b ≤ specRelevance q a)
      (searchNotesList q f notes) ∧
    (∀ k, (searchNotesList q f notes).filter (fun n => specRelevance q n == k) =
      (notes.filter (matchesSearch q f)).filter
        (fun n => specRelevance q n == k)) := by
  have hgt : (fun (a b : Note) => decide (relevanceOf q b < relevanceOf q a)) =
      (fun a b => decide (specRelevance q b < specRelevance q a)) := by
    funext a b
    rw [relevance_eq_spec q a hq, relevance_eq_spec q b hq]
  unfold searchNotesList
  rw [hgt]
  exact ⟨stableSortBy_perm _ _, stableSortBy_sorted (specRelevance q) _,
    fun k => stableSortBy_filter (specRelevance q) _ k⟩

theorem c6_search_ranking_witness :
    List.Pairwise
      (fun a b => specRelevance "quantum".data b ≤ specRelevance "quantum".data a)
      (searchNotesList "quantum".data emptyFilters [cexNoteA, cexNoteB]) :=
  (c6_search_ranking_amended "quantum".data emptyFilters [cexNoteA, cexNoteB]
    (by decide)).2.1

/-! ## C1: codec round trip -/

theorem validKeyB_spec (k : List Char) (h : validKeyB k = true) :
    k ≠ [] ∧ ∀ c ∈ k, c.isAlphanum = true := by
  unfold validKeyB at h
  rw [Bool.and_eq_true] at h
  constructor
  · intro hk
    subst hk
    simp at h
  · intro c hc
    exact List.all_eq_true.1 h.2 c hc

theorem validScalarB_spec (s : List Char) (h : validScalarB s = true) :
    s ≠ [] ∧ ∀ c ∈ s, plainChar c = true := by
  unfold validScalarB at h
  rw [Bool.and_eq_true, Bool.and_eq_true, Bool.and_eq_true] at h
  constructor
  · intro hs
    subst hs
    simp at h
  · intro c hc
    exact List.all_eq_true.1 h.1.1.2 c hc

theorem alnum_ne_reserved (c : Char) (h : c.isAlphanum = true) :
    c ≠ '\n' ∧ c ≠ ':' ∧ c ≠ ' ' ∧ c ≠ '-' := by
  refine ⟨?_, ?_, ?_, ?_⟩ <;> intro hc <;> subst hc <;> exact absurd h (by decide)

theorem plain_ne_reserved (c : Char) (h : plainChar c = true) :
    c ≠ '\n' ∧ c ≠ ':' ∧ c ≠ '[' ∧ c ≠ ']' := by
  refine ⟨?_, ?_, ?_, ?_⟩ <;> intro hc <;> subst hc <;> exact absurd h (by decide)

theorem validScalarB_ne_brackets (s : List Char) (h : validScalarB s = true) :
    s ≠ "[]".data := by
  intro hs
  subst hs
  exact absurd h (by decide)

/-- All lines `yaml.dump` produces for a valid mapping are newline-free and
none of them reads `---`. -/
theorem dumpLines_safe (m : MetaMap) (hm : validMeta m) :
    ∀ l ∈ dumpLines m, ('\n' ∉ l) ∧ l ≠ "---".data := by
  intro l hl
  unfold dumpLines at hl
  split at hl
  · simp only [List.mem_cons, List.not_mem_nil, or_false] at hl
    subst hl
    exact ⟨by decide, by decide⟩
  · rw [List.mem_flatten] at hl
    obtain ⟨L, hL, hlL⟩ := hl
    rw [List.mem_map] at hL
    obtain ⟨e, hem, rfl⟩ := hL
    obtain ⟨hk, hv⟩ := hm.1 e hem
    obtain ⟨k, v⟩ := e
    obtain ⟨hk1, hk2⟩ := validKeyB_spec k hk
    cases v with
    | str s =>
      obtain ⟨hs1, hs2⟩ := validScalarB_spec s hv
      simp only [entryLines, List.mem_cons, List.not_mem_nil, or_false] at hlL
      subst hlL
      constructor
      · intro hmem
        rcases List.mem_append.1 hmem with hmk | hms
        · exact (alnum_ne_reserved '\n' (hk2 '\n' hmk)).1 rfl
        · rcases List.mem_cons.1 hms with hcl | hms2
          · exact absurd hcl (by decide)
          · rcases List.mem_cons.1 hms2 with hcl | hms3
            · exact absurd hcl (by decide)
            · exact (plain_ne_reserved '\n' (hs2 '\n' hms3)).1 rfl
      · intro heq
        have hcol : (':' : Char) ∈ k ++ ':' :: ' ' :: s :=
          List.mem_append_right k (List.mem_cons_self ':' _)
        rw [heq] at hcol
        exact absurd hcol (by decide)
    | list xs =>
      cases xs with
      | nil =>
        simp only [entryLines, List.mem_cons, List.not_mem_nil, or_false] at hlL
        subst hlL
        constructor
        · intro hmem
          rcases List.mem_append.1 hmem with hmk | hms
          · exact (alnum_ne_reserved '\n' (hk2 '\n' hmk)).1 rfl
          · exact absurd hms (by decide)
        · intro heq
          have hcol : (':' : Char) ∈ k ++ ": []".data :=
            List.mem_append_right k (by decide)
          rw [heq] at hcol
          exact absurd hcol (by decide)
      | cons x xs2 =>
        simp only [entryLines, List.mem_cons] at hlL
        rcases hlL with rfl | hitem
        · constructor
          · intro hmem
            rcases List.mem_append.1 hmem with hmk | hms
            · exact (alnum_ne_reserved '\n' (hk2 '\n' hmk)).1 rfl
            · exact absurd hms (by decide)
          · intro heq
            have hcol : (':' : Char) ∈ k ++ [':'] :=
              List.mem_append_right k (by decide)
            rw [heq] at hcol
            exact absurd hcol (by decide)
        · rw [List.mem_map] at hitem
          obtain ⟨y, hy, rfl⟩ := hitem
          have hyv : validScalarB y = true := by
            have := hv
            unfold validValB at this
            exact List.all_eq_true.1 this y hy
          obtain ⟨hy1, hy2⟩ := validScalarB_spec y hyv
          constructor
          · intro hmem
            rcases List.mem_append.1 hmem with hmp | hmy
            · exact absurd hmp (by decide)
            · exact (plain_ne_reserved '\n' (hy2 '\n' hmy)).1 rfl
          · intro heq
            have : (' ' : Char) :: ' ' :: '-' :: ' ' :: y = "---".data := heq
            injection this with hh _
            exact absurd hh (by decide)

/-- The `---\n` separator pattern cannot begin at the start of a safe line. -/
theorem noPreLine : ∀ (h w : List Char), '\n' ∉ h → h ≠ "---".data →
    isPrefixList "---\n".data (h ++ '\n' :: w) = false := by
  intro h w hn hd
  show isPrefixList ('-' :: '-' :: '-' :: '\n' :: []) (h ++ '\n' :: w) = false
  match h with
  | [] =>
    simp only [List.nil_append, isPrefixList]
    rw [if_neg (by decide)]
  | [a] =>
    simp only [List.cons_append, List.nil_append, isPrefixList]
    by_cases ha : ('-' : Char) = a
    · rw [if_pos ha, if_neg (by decide)]
    · rw [if_neg ha]
  | [a, b] =>
    simp only [List.cons_append, List.nil_append, isPrefixList]
    by_cases ha : ('-' : Char) = a
    · rw [if_pos ha]
      by_cases hb : ('-' : Char) = b
      · rw [if_pos hb, if_neg (by decide)]
      · rw [if_neg hb]
    · rw [if_neg ha]
  | [a, b, d] =>
    simp only [List.cons_append, List.nil_append, isPrefixList]
    by_cases ha : ('-' : Char) = a
    · rw [if_pos ha]
      by_cases hb : ('-' : Char) = b
      · rw [if_pos hb]
        by_cases hd3 : ('-' : Char) = d
        · exfalso
          apply hd
          rw [← ha, ← hb, ← hd3]
        · rw [if_neg hd3]
      · rw [if_neg hb]
    · rw [if_neg ha]
  | a :: b :: d :: e :: t =>
    simp only [List.cons_append, isPrefixList]
    by_cases ha : ('-' : Char) = a
    · rw [if_pos ha]
      by_cases hb : ('-' : Char) = b
      · rw [if_pos hb]
        by_cases hd3 : ('-' : Char) = d
        · rw [if_pos hd3]
          by_cases he : ('\n' : Char) = e
          · exfalso
            subst he
            exact hn (by simp)
          · rw [if_neg he]
        · rw [if_neg hd3]
      · rw [if_neg hb]
    · rw [if_neg ha]

/-- Splitting at the first `\n---\n` after a block of safe newline-joined
lines lands exactly on the terminator the formatter wrote. -/
theorem splitFirst_sep_lines (Ls : List (List Char)) (B : List Char)
    (hs : ∀ l ∈ Ls, ('\n' ∉ l) ∧ l ≠ "---".data) :
    splitFirst ('\n' :: "---\n".data)
        (joinWith ['\n'] Ls ++ (('\n' :: "---\n".data) ++ B)) =
      some (joinWith ['\n'] Ls, B) := by
  induction Ls with
  | nil =>
    simp only [joinWith, List.nil_append]
    rw [splitFirst_here _ _ (isPrefixList_append_self _ _), isPrefixList_drop_eq]
  | cons l Ls2 ih =>
    obtain ⟨hl1, hl2⟩ := hs l (List.mem_cons_self l Ls2)
    have hnoNl : ∀ a ∈ l, a ≠ '\n' := fun a ha hcontra => hl1 (hcontra ▸ ha)
    cases Ls2 with
    | nil =>
      simp only [joinWith]
      rw [splitFirst_skip '\n' "---\n".data l _ hnoNl,
        splitFirst_here _ _ (isPrefixList_append_self _ _), isPrefixList_drop_eq]
      simp
    | cons l2 Ls3 =>
      have hs2 : ∀ x ∈ l2 :: Ls3, ('\n' ∉ x) ∧ x ≠ "---".data :=
        fun x hx => hs x (List.mem_cons_of_mem l hx)
      obtain ⟨h21, h22⟩ := hs2 l2 (List.mem_cons_self l2 Ls3)
      have hJ : ∃ w, joinWith ['\n'] (l2 :: Ls3) ++ (('\n' :: "---\n".data) ++ B) =
          l2 ++ '\n' :: w := by
        cases Ls3 with
        | nil => exact ⟨"---\n".data ++ B, by simp [joinWith]⟩
        | cons l3 Ls4 =>
          refine ⟨joinWith ['\n'] (l3 :: Ls4) ++ (('\n' :: "---\n".data) ++ B), ?_⟩
          rw [joinWith_cons _ _ _ (by simp)]
          simp
      obtain ⟨w, hw⟩ := hJ
      rw [joinWith_cons _ _ _ (by simp)]
      have hassoc :
          (l ++ ['\n'] ++ joinWith ['\n'] (l2 :: Ls3)) ++ (('\n' :: "---\n".data) ++ B) =
          l ++ ('\n' :: (joinWith ['\n'] (l2 :: Ls3) ++ (('\n' :: "---\n".data) ++ B))) := by
        simp
      rw [hassoc, splitFirst_skip '\n' "---\n".data l _ hnoNl]
      have hpre : isPrefixList ('\n' :: "---\n".data)
          ('\n' :: (joinWith ['\n'] (l2 :: Ls3) ++ (('\n' :: "---\n".data) ++ B))) =
          false := by
        simp only [isPrefixList, if_pos rfl]
        rw [hw]
        exact noPreLine l2 w h21 h22
      rw [splitFirst_skip_one _ _ _ hpre, ih hs2]
      simp

theorem takeWhile_append_of (p : α → Bool) (A B : List α)
    (hA : ∀ a ∈ A, p a = true)
    (hB : ∀ b bs, B = b :: bs → p b = false) :
    (A ++ B).takeWhile p = A ∧ (A ++ B).dropWhile p = B := by
  induction A with
  | nil =>
    cases B with
    | nil => simp
    | cons b bs =>
      have hb := hB b bs rfl
      simp [List.takeWhile_cons, List.dropWhile_cons, hb]
  | cons a A2 ih =>
    have ha := hA a (List.mem_cons_self a A2)
    obtain ⟨ih1, ih2⟩ := ih (fun x hx => hA x (List.mem_cons_of_mem a hx))
    simp [List.takeWhile_cons, List.dropWhile_cons, ha, ih1, ih2]

theorem metaLines_head_not_item (m : MetaMap)
    (hm : ∀ e ∈ m, validKeyB e.fst = true ∧ validValB e.snd = true) :
    ∀ b bs, metaLines m = b :: bs → isItemLine b = false := by
  intro b bs hb
  cases m with
  | nil => simp [metaLines] at hb
  | cons e m2 =>
    obtain ⟨k, v⟩ := e
    obtain ⟨hk, _⟩ := hm (k, v) (List.mem_cons_self _ m2)
    obtain ⟨hk1, hk2⟩ := validKeyB_spec k hk
    cases k with
    | nil => exact absurd rfl hk1
    | cons c k2 =>
      have hc : c.isAlphanum = true := hk2 c (List.mem_cons_self c k2)
      have hcsp : c ≠ ' ' := (alnum_ne_reserved c hc).2.2.1
      have hml : metaLines (((c :: k2, v)) :: m2) = entryLines (c :: k2, v) ++ metaLines m2 := by
        simp [metaLines]
      rw [hml] at hb
      have hform : ∃ restl, b = c :: restl := by
        cases v with
        | str s =>
          simp only [entryLines, List.cons_append, List.singleton_append,
            List.cons.injEq] at hb
          exact ⟨k2 ++ ':' :: ' ' :: s, hb.1.symm⟩
        | list xs =>
          cases xs with
          | nil =>
            simp only [entryLines, List.cons_append, List.singleton_append,
              List.cons.injEq] at hb
            exact ⟨k2 ++ ": []".data, hb.1.symm⟩
          | cons x xs2 =>
            simp only [entryLines, List.cons_append, List.cons.injEq] at hb
            exact ⟨k2 ++ [':'], hb.1.symm⟩
      obtain ⟨restl, rfl⟩ := hform
      show isPrefixList "  - ".data (c :: restl) = false
      simp only [isPrefixList]
      exact if_neg (fun hh => hcsp hh.symm)

theorem parseMetaLinesAux_metaLines (m : MetaMap)
    (hm : ∀ e ∈ m, validKeyB e.fst = true ∧ validValB e.snd = true) :
    ∀ fuel, (metaLines m).length ≤ fuel →
      parseMetaLinesAux fuel (metaLines m) = some m := by
  induction m with
  | nil =>
    intro fuel _
    show parseMetaLinesAux fuel [] = some []
    cases fuel <;> rfl
  | cons e m2 ih =>
    obtain ⟨k, v⟩ := e
    obtain ⟨hk, hv⟩ := hm (k, v) (List.mem_cons_self _ m2)
    have hm2 : ∀ x ∈ m2, validKeyB x.fst = true ∧ validValB x.snd = true :=
      fun x hx => hm x (List.mem_cons_of_mem _ hx)
    obtain ⟨hk1, hk2⟩ := validKeyB_spec k hk
    have hkcol : ∀ a ∈ k, a ≠ ':' := fun a ha => (alnum_ne_reserved a (hk2 a ha)).2.1
    intro fuel hfuel
    have hml : metaLines ((k, v) :: m2) = entryLines (k, v) ++ metaLines m2 := by
      simp [metaLines]
    rw [hml] at hfuel ⊢
    cases v with
    | str s =>
      simp only [entryLines, List.singleton_append] at hfuel ⊢
      cases fuel with
      | zero =>
        simp only [List.length_cons] at hfuel
        omega
      | succ f =>
        simp only [parseMetaLinesAux]
        have hsp : splitFirst (':' :: ' ' :: []) (k ++ ':' :: ' ' :: s) = some (k, s) := by
          rw [splitFirst_skip ':' (' ' :: []) k (':' :: ' ' :: s) hkcol,
            splitFirst_here (':' :: ' ' :: []) (':' :: ' ' :: s)
              (show isPrefixList (':' :: ' ' :: []) (':' :: ' ' :: s) = true from
                isPrefixList_append_self (':' :: ' ' :: []) s)]
          simp
        simp only [hsp]
        rw [if_neg (validScalarB_ne_brackets s hv),
          ih hm2 f (by simp only [List.length_cons] at hfuel; omega)]
        rfl
    | list xs =>
      cases xs with
      | nil =>
        simp only [entryLines, List.singleton_append] at hfuel ⊢
        cases fuel with
        | zero =>
          simp only [List.length_cons] at hfuel
          omega
        | succ f =>
          simp only [parseMetaLinesAux]
          have hsp : splitFirst (':' :: ' ' :: [])
              (k ++ ':' :: ' ' :: '[' :: ']' :: []) =
              some (k, '[' :: ']' :: []) := by
            rw [splitFirst_skip ':' (' ' :: []) k (':' :: ' ' :: '[' :: ']' :: []) hkcol,
              splitFirst_here (':' :: ' ' :: []) (':' :: ' ' :: '[' :: ']' :: [])
                (show isPrefixList (':' :: ' ' :: []) (':' :: ' ' :: '[' :: ']' :: []) = true
                  from isPrefixList_append_self (':' :: ' ' :: []) ('[' :: ']' :: []))]
            simp
          simp only [hsp]
          rw [if_pos trivial, ih hm2 f (by simp only [List.length_cons] at hfuel; omega)]
          rfl
      | cons x xs2 =>
        simp only [entryLines, List.cons_append] at hfuel ⊢
        cases fuel with
        | zero =>
          simp only [List.length_cons] at hfuel
          omega
        | succ f =>
          simp only [parseMetaLinesAux]
          have hnone : splitFirst (':' :: ' ' :: []) (k ++ [':']) = none := by
            rw [splitFirst_skip ':' (' ' :: []) k [':'] hkcol]
            rfl
          simp only [hnone]
          have hend : endsWithL ":".data (k ++ [':']) = true := by
            unfold endsWithL
            rw [List.reverse_append]
            simp [isPrefixList]
          rw [if_pos hend]
          have hitems : ∀ a ∈ (x :: xs2).map
              (fun y => ' ' :: ' ' :: '-' :: ' ' :: ([] ++ y)),
              isItemLine a = true := by
            intro a ha
            rw [List.mem_map] at ha
            obtain ⟨y, _, rfl⟩ := ha
            exact isPrefixList_append_self "  - ".data y
          obtain ⟨htake, hdrop⟩ := takeWhile_append_of isItemLine
            ((x :: xs2).map (fun y => ' ' :: ' ' :: '-' :: ' ' :: ([] ++ y))) (metaLines m2)
            hitems (metaLines_head_not_item m2 hm2)
          rw [htake, hdrop]
          rw [ih hm2 f ?hlen]
          · have hmap : (((x :: xs2).map
                (fun y => ' ' :: ' ' :: '-' :: ' ' :: ([] ++ y))).map
                (fun z => z.drop 4)) = x :: xs2 := by
              rw [List.map_map]
              have hcomp : ∀ y ∈ (x :: xs2),
                  ((fun z => z.drop 4) ∘
                    fun y2 => ' ' :: ' ' :: '-' :: ' ' :: ([] ++ y2)) y = y := fun y _ =>
                isPrefixList_drop_eq "  - ".data y
              rw [List.map_congr_left hcomp]
              exact List.map_id _
            rw [List.dropLast_concat, hmap]
            rfl
          case hlen =>
            simp only [List.length_cons, List.length_append, List.length_map] at hfuel ⊢
            omega

theorem parseMetaLines_metaLines (m : MetaMap)
    (hm : ∀ e ∈ m, validKeyB e.fst = true ∧ validValB e.snd = true) :
    parseMetaLines (metaLines m) = some m :=
  parseMetaLinesAux_metaLines m hm _ (Nat.le_refl _)

theorem entryLines_ne_nil (e : List Char × YVal) : entryLines e ≠ [] := by
  obtain ⟨k, v⟩ := e
  cases v with
  | str s => simp [entryLines]
  | list xs => cases xs <;> simp [entryLines]

theorem dumpLines_ne_nil (m : MetaMap) : dumpLines m ≠ [] := by
  cases m with
  | nil => simp [dumpLines]
  | cons e m2 =>
    unfold dumpLines
    rw [if_neg (List.cons_ne_nil e m2)]
    simp only [List.map_cons, List.flatten_cons]
    intro hcontra
    exact entryLines_ne_nil e (List.append_eq_nil.1 hcontra).1

theorem dumpLines_cons (e : List Char × YVal) (m2 : MetaMap) :
    dumpLines (e :: m2) = metaLines (e :: m2) := by
  unfold dumpLines metaLines
  rw [if_neg (List.cons_ne_nil e m2)]

theorem lineJoin_eq_joinWith (l : List Char) (ls : List (List Char)) :
    lineJoin (l :: ls) = joinWith ['\n'] (l :: ls) ++ ['\n'] := by
  induction ls generalizing l with
  | nil => simp [lineJoin, joinWith]
  | cons l2 ls2 ih =>
    have h1 : lineJoin (l :: l2 :: ls2) = (l ++ ['\n']) ++ lineJoin (l2 :: ls2) := by
      simp [lineJoin]
    rw [h1, ih l2, joinWith_cons _ _ _ (List.cons_ne_nil l2 ls2)]
    simp

theorem splitOnChar_cons_sep (sep : Char) (rest : List Char) :
    splitOnChar sep (sep :: rest) = [] :: splitOnChar sep rest := by
  simp only [splitOnChar]
  cases h : splitOnChar sep rest with
  | nil => exact absurd h (splitOnChar_ne_nil sep rest)
  | cons a b => simp

theorem splitOnChar_joinWith (l : List Char) (ls : List (List Char))
    (h : ∀ x ∈ l :: ls, ∀ a ∈ x, a ≠ '\n') :
    splitOnChar '\n' (joinWith ['\n'] (l :: ls)) = l :: ls := by
  induction ls generalizing l with
  | nil => exact splitOnChar_noSep '\n' l (h l (List.mem_cons_self l []))
  | cons l2 ls2 ih =>
    have hl := h l (List.mem_cons_self l (l2 :: ls2))
    rw [joinWith_cons _ _ _ (List.cons_ne_nil l2 ls2)]
    have h1 : l ++ ['\n'] ++ joinWith ['\n'] (l2 :: ls2) =
        l ++ '\n' :: joinWith ['\n'] (l2 :: ls2) := by simp
    rw [h1, splitOnChar_append '\n' l _ hl,
      ih l2 (fun x hx => h x (List.mem_cons_of_mem l hx))]

theorem joinWith_head (c : Char) (r : List Char) (rest : List (List Char)) :
    ∃ w, joinWith ['\n'] ((c :: r) :: rest) = c :: w := by
  cases rest with
  | nil => exact ⟨r, rfl⟩
  | cons a b =>
    refine ⟨r ++ '\n' :: joinWith ['\n'] (a :: b), ?_⟩
    rw [joinWith_cons _ _ _ (List.cons_ne_nil a b)]
    simp

theorem metaLines_head_alnum (m : MetaMap)
    (hm : ∀ e ∈ m, validKeyB e.fst = true ∧ validValB e.snd = true)
    (hne : m ≠ []) :
    ∃ c r1 r2, metaLines m = (c :: r1) :: r2 ∧ c.isAlphanum = true := by
  cases m with
  | nil => exact absurd rfl hne
  | cons e m2 =>
    obtain ⟨k, v⟩ := e
    obtain ⟨hk, _⟩ := hm (k, v) (List.mem_cons_self _ m2)
    obtain ⟨hk1, hk2⟩ := validKeyB_spec k hk
    cases k with
    | nil => exact absurd rfl hk1
    | cons c k2 =>
      have hc := hk2 c (List.mem_cons_self c k2)
      have hml : metaLines ((c :: k2, v) :: m2) =
          entryLines (c :: k2, v) ++ metaLines m2 := by
        simp [metaLines]
      cases v with
      | str s =>
        exact ⟨c, k2 ++ ':' :: ' ' :: s, metaLines m2, by rw [hml]; rfl, hc⟩
      | list xs =>
        cases xs with
        | nil =>
          exact ⟨c, k2 ++ ": []".data, metaLines m2, by rw [hml]; rfl, hc⟩
        | cons x xs2 =>
          exact ⟨c, k2 ++ [':'],
            (x :: xs2).map (fun y => "  - ".data ++ y) ++ metaLines m2,
            by rw [hml]; rfl, hc⟩

/-- Loading back the newline-joined dump lines of a valid mapping recovers
the mapping (the `yaml.load` / `yaml.dump` round trip of the model). -/
theorem loadYaml_join_dumpLines (m : MetaMap) (hm : validMeta m) :
    loadYaml (joinWith ['\n'] (dumpLines m)) = some m := by
  cases m with
  | nil => rfl
  | cons e m2 =>
    rw [dumpLines_cons]
    obtain ⟨c, r1, r2, hml, hcal⟩ :=
      metaLines_head_alnum (e :: m2) hm.1 (List.cons_ne_nil e m2)
    unfold loadYaml
    rw [if_neg ?hne]
    case hne =>
      rw [hml]
      obtain ⟨w, hw⟩ := joinWith_head c r1 r2
      rw [hw]
      intro hcontra
      have h2 : c :: w = '\x7b' :: '\x7d' :: [] := hcontra
      injection h2 with h1 _
      rw [h1] at hcal
      exact absurd hcal (by decide)
    have hsafe : ∀ x ∈ metaLines (e :: m2), ∀ a ∈ x, a ≠ '\n' := by
      intro x hx a ha hcontra
      have hnl := (dumpLines_safe (e :: m2) hm x (by rw [dumpLines_cons]; exact hx)).1
      exact hnl (hcontra ▸ ha)
    rw [hml] at hsafe ⊢
    rw [splitOnChar_joinWith _ _ hsafe, ← hml]
    exact parseMetaLines_metaLines (e :: m2) hm.1

/-- On a note the formatter wrote in its heading-inserting branch, the
front-matter regular expression splits exactly at the `---` terminator the
formatter emitted: the captured YAML text is the newline-joined dump lines
and the body starts with the blank line before the synthesized heading. -/
theorem splitFrontMatter_format (m : MetaMap) (t c : List Char)
    (hm : validMeta m)
    (hc : isPrefixList "# ".data (trimList c) = false) :
    splitFrontMatter (formatNoteContent m t c) =
      some (joinWith ['\n'] (dumpLines m),
        '\n' :: (("# ".data ++ t) ++ '\n' :: ('\n' :: c))) := by
  obtain ⟨l, ls, hls⟩ : ∃ l ls, dumpLines m = l :: ls := by
    cases hdl : dumpLines m with
    | nil => exact absurd hdl (dumpLines_ne_nil m)
    | cons a b => exact ⟨a, b, rfl⟩
  have hraw : formatNoteContent m t c =
      "---\n".data ++ (joinWith ['\n'] (dumpLines m) ++
        (('\n' :: "---\n".data) ++
          ('\n' :: (("# ".data ++ t) ++ '\n' :: ('\n' :: c))))) := by
    unfold formatNoteContent
    rw [if_neg (by simp [hc])]
    unfold dumpYaml
    rw [hls, lineJoin_eq_joinWith, ← hls]
    have hsep1 : ("---\n\n# ".data : List Char) = "---\n".data ++ '\n' :: "# ".data := rfl
    have hsep2 : ("\n\n".data : List Char) = '\n' :: ('\n' :: []) := rfl
    rw [hsep1, hsep2]
    simp [List.append_assoc]
  rw [hraw]
  unfold splitFrontMatter
  rw [if_pos (isPrefixList_append_self "---\n".data _)]
  have hdrop : ("---\n".data ++ (joinWith ['\n'] (dumpLines m) ++
      (('\n' :: "---\n".data) ++
        ('\n' :: (("# ".data ++ t) ++ '\n' :: ('\n' :: c)))))).drop 4 =
      joinWith ['\n'] (dumpLines m) ++
        (('\n' :: "---\n".data) ++
          ('\n' :: (("# ".data ++ t) ++ '\n' :: ('\n' :: c)))) :=
    isPrefixList_drop_eq "---\n".data _
  rw [hdrop]
  have hsep3 : ("\n---\n".data : List Char) = '\n' :: "---\n".data := rfl
  rw [hsep3]
  exact splitFirst_sep_lines (dumpLines m) _ (dumpLines_safe m hm)

/-- The multiline title regular expression finds the synthesized heading:
on a body of the form `\n# t\n\n...` with a newline-free `t` it extracts
exactly `t`. -/
theorem extractTitle_after_heading (t c : List Char) (ht : ∀ a ∈ t, a ≠ '\n') :
    extractTitle ('\n' :: (("# ".data ++ t) ++ '\n' :: ('\n' :: c))) = some t := by
  unfold extractTitle
  rw [splitOnChar_cons_sep, splitOnChar_append '\n' _ _ ?hnl]
  case hnl =>
    intro a ha
    rcases List.mem_append.1 ha with h1 | h2
    · have h1b : a ∈ '#' :: ' ' :: [] := h1
      rcases List.mem_cons.1 h1b with rfl | h1c
      · decide
      · rcases List.mem_cons.1 h1c with rfl | h1d
        · decide
        · exact absurd h1d (List.not_mem_nil a)
    · exact ht a h2
  rfl

/-- C1: counterexample to the codec round trip. On the valid triple
(metadata `date: 2025-03-15`, title `Quantum`, content `body`) the
formatter writes the heading `# Quantum` into the file body, and
`parseNoteContent` keeps that heading inside the decoded `content` field:
the round trip preserves metadata and title but returns
`# Quantum\n\nbody`, not `body`, as the content. -/
theorem c1_codec_roundtrip_counterexample :
    validMeta [("date".data, YVal.str "2025-03-15".data)] ∧
    (parseNoteContent
        (formatNoteContent [("date".data, YVal.str "2025-03-15".data)]
          "Quantum".data "body".data)
        (rootSegs ++ ["topics".data, "a.md".data]) rootSegs).metadata =
      [("date".data, YVal.str "2025-03-15".data)] ∧
    (parseNoteContent
        (formatNoteContent [("date".data, YVal.str "2025-03-15".data)]
          "Quantum".data "body".data)
        (rootSegs ++ ["topics".data, "a.md".data]) rootSegs).title =
      "Quantum".data ∧
    (parseNoteContent
        (formatNoteContent [("date".data, YVal.str "2025-03-15".data)]
          "Quantum".data "body".data)
        (rootSegs ++ ["topics".data, "a.md".data]) rootSegs).content ≠
      "body".data ∧
    (parseNoteContent
        (formatNoteContent [("date".data, YVal.str "2025-03-15".data)]
          "Quantum".data "body".data)
        (rootSegs ++ ["topics".data, "a.md".data]) rootSegs).content =
      "# Quantum\n\nbody".data := by
  decide

/-- C1 (amended): for every valid metadata mapping, every newline-free
title, and every content whose trimmed form does not already start with
`# `, parsing the formatted note (with any file path and base directory)
recovers the metadata mapping and the title exactly, while the decoded
content is the trimmed body including the synthesized heading:
`trim("# " ++ title ++ "\n\n" ++ content)`. -/
theorem c1_codec_roundtrip_amended (m : MetaMap) (t c : List Char)
    (fileSegs rsegs : List (List Char))
    (hm : validMeta m) (ht : ∀ a ∈ t, a ≠ '\n')
    (hc : isPrefixList "# ".data (trimList c) = false) :
    (parseNoteContent (formatNoteContent m t c) fileSegs rsegs).metadata = m ∧
    (parseNoteContent (formatNoteContent m t c) fileSegs rsegs).title = t ∧
    (parseNoteContent (formatNoteContent m t c) fileSegs rsegs).content =
      trimList ("# ".data ++ t ++ "\n\n".data ++ c) := by
  have hsf := splitFrontMatter_format m t c hm hc
  have hld := loadYaml_join_dumpLines m hm
  have hti := extractTitle_after_heading t c ht
  unfold parseNoteContent
  simp only [hsf, hld]
  refine ⟨trivial, ?_, ?_⟩
  · rw [hti]
    rfl
  · rw [trimList_cons_ws '\n' _ (by decide)]
    simp [List.append_assoc]

theorem c1_codec_roundtrip_witness :
    (parseNoteContent
        (formatNoteContent [("date".data, YVal.str "2025-03-15".data)]
          "Quantum".data "body".data)
        (rootSegs ++ ["topics".data, "a.md".data]) rootSegs).metadata =
      [("date".data, YVal.str "2025-03-15".data)] ∧
    (parseNoteContent
        (formatNoteContent [("date".data, YVal.str "2025-03-15".data)]
          "Quantum".data "body".data)
        (rootSegs ++ ["topics".data, "a.md".data]) rootSegs).title =
      "Quantum".data ∧
    (parseNoteContent
        (formatNoteContent [("date".data, YVal.str "2025-03-15".data)]
          "Quantum".data "body".data)
        (rootSegs ++ ["topics".data, "a.md".data]) rootSegs).content =
      trimList ("# ".data ++ "Quantum".data ++ "\n\n".data ++ "body".data) :=
  c1_codec_roundtrip_amended [("date".data, YVal.str "2025-03-15".data)]
    "Quantum".data "body".data
    (rootSegs ++ ["topics".data, "a.md".data]) rootSegs
    (by decide) (by decide) (by decide)
